import Mathlib

/-!
Verification of the `llm-web-extractor` TypeScript SDK against its
natural-language specification.

The development shallowly embeds the pure computational core of the
repository:

* `src/utils/content-utils.ts` — whitespace splitting, word counting,
  content cleaning, keyword-based language detection, Jaccard similarity;
* `src/utils/url-utils.ts` — URL validation/normalization (backed by a
  model of the WHATWG `URL` / `URLSearchParams` behaviour on a restricted
  but representative domain of http(s) URLs), deduplication and pattern
  filtering;
* the crawl-orchestration logic of `WebExtractor.extractWebsite`
  (`extractContent`, `buildMetadata`, per-record processing, statistics).

Modelling conventions:

* Strings are processed as `List Char`; `String` wrappers are provided at
  the API boundary.
* JavaScript exceptions are modelled with `Option`: a function that can
  throw returns `none` on the throwing paths.
* JavaScript `x || y` on strings treats `""` as falsy; the helpers
  `getNE` / `toNE` reproduce that.
* The WHATWG `URL` model parses absolute http(s) URLs of the shape
  `scheme://host/path?query#fragment` with an ASCII host (letters,
  digits, `.`, `-`, lowercased at parse time as the real parser does), a
  path over characters the real parser serializes unchanged and without
  `.` / `..` segments (so no dot-segment normalization is needed), and a
  query over characters that `application/x-www-form-urlencoded`
  round-trips literally.  On this domain the model agrees with the real
  parser; URLs outside it are treated as unparseable.
* Regular-expression pattern arguments (`RegExp[]`) are modelled as
  `String → Bool` predicates (`pattern.test`).
* JavaScript number division is modelled in `ℚ`; the one reachable `0/0`
  (NaN) is modelled as `none` in an `Option ℚ`.
* Wall-clock values (`Date.now()` durations, `scrapedAt` timestamps) are
  not modelled; no claim mentions them.
-/

/-! # Definitions -/

/-! ## Character utilities -/

/-- ASCII uppercase test, `'A'..'Z'` by code point. -/
def isUpperAscii (c : Char) : Bool :=
  decide (65 ≤ c.toNat ∧ c.toNat ≤ 90)

/-- ASCII lowercasing of one character, the effect of JavaScript
`String.prototype.toLowerCase` on the ASCII range (the only range our
URL-host and keyword models admit). -/
def lowerChar (c : Char) : Char :=
  if isUpperAscii c then Char.ofNat (c.toNat + 32) else c

/-- ASCII lowercasing of a character list. -/
def lowerStr (l : List Char) : List Char :=
  l.map lowerChar

/-! ## Whitespace splitting (JavaScript `split(/\s+/)`)

`countWords`, `cleanContent` and `calculateSimilarity` in
`src/utils/content-utils.ts` all split on runs of whitespace.  JavaScript
`"".split(/\s+/)` yields `[""]`, and leading / trailing whitespace yields
an empty first / last token; `splitWs` reproduces exactly that.  The
whitespace class is modelled by its ASCII members. -/

/-- Model of the JavaScript regex class `\s` (ASCII members). -/
def isWsChar (c : Char) : Bool :=
  c = ' ' || c = '\t' || c = '\n' || c = '\r' || c = '\x0b' || c = '\x0c'

mutual

/-- Worker for `splitWs`: `cur` is the reversed current token; a whitespace
character ends the token and switches to run-skipping. -/
def splitWsGo (cur : List Char) : List Char → List (List Char)
  | [] => [cur.reverse]
  | c :: cs =>
    if isWsChar c then cur.reverse :: splitWsSkip cs
    else splitWsGo (c :: cur) cs

/-- Worker for `splitWs`: inside a whitespace run; at the end of input the
run contributes a trailing empty token, as JavaScript `split` does. -/
def splitWsSkip : List Char → List (List Char)
  | [] => [[]]
  | c :: cs =>
    if isWsChar c then splitWsSkip cs
    else splitWsGo [c] cs

end

/-- JavaScript `s.split(/\s+/)` on character lists. -/
def splitWs (l : List Char) : List (List Char) :=
  splitWsGo [] l

/-! ## Content utilities (`src/utils/content-utils.ts`) -/

/-- Model of `countWords` (content-utils.ts): split on whitespace runs, count
non-empty tokens; the `if (!content) return 0` guard handles `""`. -/
def countWords (content : String) : Nat :=
  if content = "" then 0
  else ((splitWs content.toList).filter (fun w => w.length > 0)).length

/-- A maximal newline run of length `n`: runs of three or more newlines
emit exactly two, shorter runs are kept verbatim — the replacement of the
regex `\n{3,}` in `cleanContent`. -/
def emitNewlineRun (n : Nat) : List Char :=
  if n ≥ 3 then ['\n', '\n'] else List.replicate n '\n'

mutual

/-- Collapse every run of three or more `'\n'` into exactly two — the
`content.replace(/\n{3,}/g, '\n\n')` step of `cleanContent`. -/
def collapseNewlines : List Char → List Char
  | [] => []
  | c :: cs =>
    if c = '\n' then collapseNewlineRun 1 cs
    else c :: collapseNewlines cs

/-- Worker for `collapseNewlines`: inside a newline run of length `n` so
far. -/
def collapseNewlineRun (n : Nat) : List Char → List Char
  | [] => emitNewlineRun n
  | c :: cs =>
    if c = '\n' then collapseNewlineRun (n + 1) cs
    else emitNewlineRun n ++ c :: collapseNewlines cs

end

/-- JavaScript `String.prototype.trim` on character lists. -/
def trimStr (l : List Char) : List Char :=
  ((l.dropWhile isWsChar).reverse.dropWhile isWsChar).reverse

/-- Model of `cleanContent` (content-utils.ts): collapse newline runs, then trim;
empty input short-circuits to `""`. -/
def cleanContent (content : String) : String :=
  if content = "" then ""
  else ⟨trimStr (collapseNewlines content.toList)⟩

/-- Model of the JavaScript regex class `\w`: `[A-Za-z0-9_]`. -/
def isWordChar (c : Char) : Bool :=
  decide (65 ≤ c.toNat ∧ c.toNat ≤ 90) || decide (97 ≤ c.toNat ∧ c.toNat ≤ 122) ||
    decide (48 ≤ c.toNat ∧ c.toNat ≤ 57) || c = '_'

/-- A `\b` boundary next to the character (if any) on the given side. -/
def boundaryOK : Option Char → Bool
  | none => true
  | some c => !isWordChar c

/-- Does the lowercase word `w` occur, case-insensitively, at the head of
`s`? -/
def matchesAt (w s : List Char) : Bool :=
  decide (w.length ≤ s.length) && decide (lowerStr (s.take w.length) = w)

/-- Worker for `testWord`: `prev` is the character just before `s`. -/
def testWordGo (w : List Char) : Option Char → List Char → Bool
  | _, [] => false
  | prev, c :: cs =>
    (boundaryOK prev && matchesAt w (c :: cs) &&
      boundaryOK ((c :: cs).drop w.length).head?) ||
      testWordGo w (some c) cs

/-- Model of `new RegExp("\\b" + w + "\\b", "i").test(s)` for an all-letter
word `w` (given in lowercase), as used by `detectLanguage`. -/
def testWord (w : String) (s : String) : Bool :=
  testWordGo w.toList none s.toList

/-- The fixed language table of `detectLanguage` (content-utils.ts), in
object-literal order. -/
def languageTable : List (String × List String) :=
  [("en", ["the", "and", "of", "is"]),
   ("es", ["el", "la", "de", "que"]),
   ("fr", ["le", "la", "de", "et"]),
   ("de", ["der", "die", "das", "und"])]

/-- Head of a stable descending sort by score: keeps the earliest entry
among equal scores, exactly what
`Object.entries(scores).sort(([, a], [, b]) => b - a)[0]` selects. -/
def bestScore : List (String × Nat) → Option (String × Nat)
  | [] => none
  | p :: ps =>
    match bestScore ps with
    | none => some p
    | some q => if q.2 > p.2 then some q else some p

/-- Model of `detectLanguage` (content-utils.ts): score each language by the number
of its marker-word regexes matching the content; return the top-scoring
language, or `none` if every score is zero. -/
def detectLanguage (content : String) : Option String :=
  let scores := languageTable.map fun lw =>
    (lw.1, (lw.2.filter fun w => testWord w content).length)
  match bestScore scores with
  | some lo => if lo.2 > 0 then some lo.1 else none
  | none => none

/-- First-occurrence deduplication, the effect of `new Set(list)` followed
by iteration in insertion order. -/
def dedupList : List (List Char) → List (List Char)
  | [] => []
  | x :: xs => x :: (dedupList xs).filter (fun y => y ≠ x)

/-- The token set `new Set(content.toLowerCase().split(/\s+/))` built by
`calculateSimilarity`.  Note there is no empty-token filter: `""` and
padded strings contribute an empty token. -/
def simTokens (content : String) : List (List Char) :=
  dedupList (splitWs (lowerStr content.toList))

/-- Model of `calculateSimilarity` (content-utils.ts): Jaccard ratio
`|words1 ∩ words2| / |words1 ∪ words2|` of the two token sets.  The
JavaScript division produces `NaN` when the union is empty; that value is
modelled as `none`. -/
def calculateSimilarity (content1 content2 : String) : Option ℚ :=
  let words1 := simTokens content1
  let words2 := simTokens content2
  let inter := words1.filter (fun x => words2.contains x)
  let union := dedupList (words1 ++ words2)
  if union.length = 0 then none
  else some ((inter.length : ℚ) / (union.length : ℚ))

/-! ## URL model (`src/utils/url-utils.ts` and the WHATWG `URL` object)

`validateUrl` wraps `new URL(url)` plus an http/https protocol check; the
other URL utilities build on it.  `URLObj` models the parsed URL object:
`scheme` without the colon, `host` as lowercased by the parser, `pathname`
beginning with `'/'`, `search` without the leading `'?'` (empty when there
is no query) and `hash` without the leading `'#'`. -/

structure URLObj where
  scheme : List Char
  host : List Char
  pathname : List Char
  search : List Char
  hash : List Char
deriving DecidableEq, Repr

/-- Characters admitted in a host: ASCII letters, digits, `'.'`, `'-'`. -/
def hostCharOK (c : Char) : Bool :=
  decide (65 ≤ c.toNat ∧ c.toNat ≤ 90) || decide (97 ≤ c.toNat ∧ c.toNat ≤ 122) ||
    decide (48 ≤ c.toNat ∧ c.toNat ≤ 57) || c = '.' || c = '-'

/-- Characters admitted in a path: those the WHATWG serializer keeps
verbatim in our model domain. -/
def pathCharOK (c : Char) : Bool :=
  decide (65 ≤ c.toNat ∧ c.toNat ≤ 90) || decide (97 ≤ c.toNat ∧ c.toNat ≤ 122) ||
    decide (48 ≤ c.toNat ∧ c.toNat ≤ 57) || c = '/' || c = '-' || c = '.' || c = '_' || c = '~'

/-- Characters admitted in a query: those `application/x-www-form-urlencoded`
round-trips literally, plus the structural `'&'` and `'='`. -/
def queryCharOK (c : Char) : Bool :=
  decide (65 ≤ c.toNat ∧ c.toNat ≤ 90) || decide (97 ≤ c.toNat ∧ c.toNat ≤ 122) ||
    decide (48 ≤ c.toNat ∧ c.toNat ≤ 57) || c = '*' || c = '-' || c = '.' || c = '_' ||
    c = '&' || c = '='

/-- Terminators of the host component. -/
def hostEndChar (c : Char) : Bool :=
  c = '/' || c = '?' || c = '#'

/-- Terminators of the path component. -/
def pathEndChar (c : Char) : Bool :=
  c = '?' || c = '#'

/-- Split a character list on a separator, keeping empty fields. -/
def splitOn (sep : Char) : List Char → List (List Char)
  | [] => [[]]
  | c :: cs =>
    if c = sep then [] :: splitOn sep cs
    else
      match splitOn sep cs with
      | [] => [[c]]
      | s :: ss => (c :: s) :: ss

/-- No path segment is `.` or `..`, so WHATWG dot-segment normalization is
the identity on the paths our model admits. -/
def noDotSegments (path : List Char) : Bool :=
  (splitOn '/' path).all fun seg => seg ≠ ['.'] && seg ≠ ['.', '.']

/-- Recognize and remove an `http://` or `https://` scheme head, the only
schemes `validateUrl` accepts. -/
def dropScheme : List Char → Option (List Char × List Char)
  | 'h' :: 't' :: 't' :: 'p' :: 's' :: ':' :: '/' :: '/' :: r => some ("https".toList, r)
  | 'h' :: 't' :: 't' :: 'p' :: ':' :: '/' :: '/' :: r => some ("http".toList, r)
  | _ => none

/-- Model of `new URL(url)` (restricted to the documented domain) combined
with `validateUrl`'s http/https check: hosts are lowercased at parse time
as the WHATWG parser does; an empty path serializes as `/`. -/
def parseUrl (l : List Char) : Option URLObj :=
  match dropScheme l with
  | none => none
  | some (sch, r0) =>
    let host0 := r0.takeWhile fun c => !hostEndChar c
    let r1 := r0.dropWhile fun c => !hostEndChar c
    if host0 = [] || !host0.all hostCharOK then none
    else
      let path0 := r1.takeWhile fun c => !pathEndChar c
      let r2 := r1.dropWhile fun c => !pathEndChar c
      let pathname := if path0 = [] then ['/'] else path0
      let search :=
        match r2 with
        | '?' :: rest => rest.takeWhile fun c => c ≠ '#'
        | _ => []
      let r3 :=
        match r2 with
        | '?' :: rest => rest.dropWhile fun c => c ≠ '#'
        | _ => r2
      let hash :=
        match r3 with
        | '#' :: rest => rest
        | _ => []
      if pathname.all pathCharOK && noDotSegments pathname && search.all queryCharOK then
        some ⟨sch, lowerStr host0, pathname, search, hash⟩
      else none

/-- Well-formedness of a parsed URL object: exactly the shape `parseUrl`
guarantees (http(s) scheme, non-empty lowercase host over the host
alphabet, non-empty path starting with `'/'` over the path alphabet with
no dot segments, query over the query alphabet).  Used to state the
parse/serialize round trip. -/
def URLObj.Wf (u : URLObj) : Prop :=
  (u.scheme = "http".toList ∨ u.scheme = "https".toList) ∧
  u.host ≠ [] ∧ u.host.all hostCharOK = true ∧ lowerStr u.host = u.host ∧
  u.pathname ≠ [] ∧ u.pathname.head? = some '/' ∧ u.pathname.all pathCharOK = true ∧
  noDotSegments u.pathname = true ∧ u.search.all queryCharOK = true

/-- Model of `URL.prototype.toString`. -/
def serializeUrl (u : URLObj) : List Char :=
  u.scheme ++ (':' :: '/' :: '/' :: u.host) ++ u.pathname ++
    (if u.search = [] then [] else '?' :: u.search) ++
    (if u.hash = [] then [] else '#' :: u.hash)

/-- Model of `validateUrl` (url-utils.ts): `none` models the thrown
`Invalid URL` error. -/
def validateUrl (url : String) : Option URLObj :=
  parseUrl url.toList

/-- Split a query piece at its first `'='`; a piece without `'='` becomes a
key with empty value, as in `URLSearchParams`. -/
def splitEqAt : List Char → List Char × List Char
  | [] => ([], [])
  | c :: cs =>
    if c = '=' then ([], cs)
    else
      ((splitEqAt cs).1.cons c, (splitEqAt cs).2)

/-- Model of `new URLSearchParams(q).entries()`: split on `'&'`, drop empty
pieces, split each piece at its first `'='`. -/
def parsePairs (q : List Char) : List (List Char × List Char) :=
  ((splitOn '&' q).filter fun piece => piece ≠ []).map splitEqAt

/-- Model of `URLSearchParams.prototype.toString` on our literal-character
domain: `k=v` pieces joined by `'&'` (every pair gets an `'='`). -/
def serializePairs : List (List Char × List Char) → List Char
  | [] => []
  | [p] => p.1 ++ '=' :: p.2
  | p :: q :: ps => p.1 ++ '=' :: p.2 ++ '&' :: serializePairs (q :: ps)

/-- Strict code-point comparison of parameter names, the model of the
`([a], [b]) => a.localeCompare(b)` comparator (collation order restricted
to code points). -/
def keyLt : List Char → List Char → Bool
  | [], [] => false
  | [], _ :: _ => true
  | _ :: _, [] => false
  | a :: as, b :: bs =>
    if a.toNat < b.toNat then true
    else if b.toNat < a.toNat then false
    else keyLt as bs

/-- Stable ordered insertion: the new pair goes before later-seen pairs with
an equal key, matching the stability of `Array.prototype.sort`. -/
def insertPair (p : List Char × List Char) :
    List (List Char × List Char) → List (List Char × List Char)
  | [] => [p]
  | q :: qs => if keyLt q.1 p.1 then q :: insertPair p qs else p :: q :: qs

/-- Stable insertion sort by parameter name. -/
def sortPairs : List (List Char × List Char) → List (List Char × List Char)
  | [] => []
  | p :: ps => insertPair p (sortPairs ps)

/-- Well-formedness of a query pair list: keys contain no `'&'` or `'='`,
values contain no `'&'` — the invariant `parsePairs` establishes and
`serializePairs` inverts. -/
def PairsWf (ps : List (List Char × List Char)) : Prop :=
  ∀ p ∈ ps, ('&' ∉ p.1 ∧ '=' ∉ p.1) ∧ '&' ∉ p.2

/-- Ascending-by-key order for query pair lists. -/
def SortedPairs : List (List Char × List Char) → Prop :=
  List.Chain' fun p q => keyLt q.1 p.1 = false

/-- Model of `NormalizeUrlOptions` (types.ts) with its documented defaults. -/
structure NormalizeUrlOptions where
  removeTrailingSlash : Bool := true
  removeQueryParams : Bool := false
  removeFragment : Bool := true
  lowercase : Bool := true
  sortQueryParams : Bool := true
deriving DecidableEq, Repr

/-- The URL-object mutation phase of `normalizeUrl` (url-utils.ts lines
36-56): hostname lowercasing, fragment removal, query removal or stable
key-sort — applied in the source's order. -/
def applyNormalizeOptions (o : NormalizeUrlOptions) (u : URLObj) : URLObj :=
  let u1 := if o.lowercase then { u with host := lowerStr u.host } else u
  let u2 := if o.removeFragment then { u1 with hash := [] } else u1
  if o.removeQueryParams then { u2 with search := [] }
  else if o.sortQueryParams ∧ u2.search ≠ [] then
    { u2 with search := serializePairs (sortPairs (parsePairs u2.search)) }
  else u2

/-- The trailing-slash step of `normalizeUrl`: if enabled and the serialized
URL ends with `'/'`, strip exactly one trailing character. -/
def stripSlash (removeTrailingSlash : Bool) (l : List Char) : List Char :=
  if removeTrailingSlash ∧ l.getLast? = some '/' then l.dropLast else l

/-- Model of `normalizeUrl` (url-utils.ts) on character lists. -/
def normalizeUrlCore (o : NormalizeUrlOptions) (l : List Char) : Option (List Char) :=
  (parseUrl l).map fun u =>
    stripSlash o.removeTrailingSlash (serializeUrl (applyNormalizeOptions o u))

/-- Model of `normalizeUrl` (url-utils.ts): `none` models the thrown `Invalid URL`
error. -/
def normalizeUrl (url : String) (o : NormalizeUrlOptions := {}) : Option String :=
  (normalizeUrlCore o url.toList).map fun l => ⟨l⟩

/-- Worker for `deduplicateUrls`: `seen` is the set of normalized keys
already kept (the source's `Set<string>`). -/
def dedupGo (o : NormalizeUrlOptions) (seen : List String) : List String → List String
  | [] => []
  | u :: us =>
    match normalizeUrl u o with
    | none => dedupGo o seen us
    | some k => if seen.contains k then dedupGo o seen us else u :: dedupGo o (k :: seen) us

/-- Model of `deduplicateUrls` (url-utils.ts): normalize each URL to a comparison
key, silently skip unparseable URLs, keep the first-seen original form per
key. -/
def deduplicateUrls (urls : List String) (o : NormalizeUrlOptions := {}) : List String :=
  dedupGo o [] urls

/-- The per-URL predicate of `filterUrlsByPattern` (url-utils.ts lines
160-172): excludes first (`excludePatterns?.some(...)`), then includes
(`includePatterns?.length` — an absent or empty include list keeps the
URL). -/
def keepUrl (includePatterns excludePatterns : Option (List (String → Bool)))
    (url : String) : Bool :=
  if (excludePatterns.getD []).any (fun p => p url) then false
  else
    match includePatterns with
    | some ps => if ps.length ≠ 0 then ps.any fun p => p url else true
    | none => true

/-- Model of `filterUrlsByPattern` (url-utils.ts).  `RegExp[]` arguments are
modelled as `String → Bool` predicates; `none` models an absent argument. -/
def filterUrlsByPattern (urls : List String)
    (includePatterns : Option (List (String → Bool)) := none)
    (excludePatterns : Option (List (String → Bool)) := none) : List String :=
  urls.filter (keepUrl includePatterns excludePatterns)

/-! ## Crawl orchestration (`WebExtractor`, src/web-extractor.ts)

The collaborator (Firecrawl) response is opaque data: `RawPage` models one
raw crawl record with its optional payloads and metadata object.  The
orchestration after `crawlUrl` returns — URL collection, deduplication,
pattern filtering, per-record processing and statistics — is modelled as
the pure function `extractWebsite` over that data.  `none` models the
`Invalid URL` error thrown on a bad seed URL before the collaborator call;
a collaborator-level failure is outside the model (the raw record list is
an input). -/

/-- JavaScript `x || dflt` for an optional string `x`: `""` is falsy. -/
def getNE (x : Option String) (dflt : String) : String :=
  match x with
  | some s => if s = "" then dflt else s
  | none => dflt

/-- JavaScript `x || undefined` for an optional string `x`. -/
def toNE (x : Option String) : Option String :=
  match x with
  | some s => if s = "" then none else some s
  | none => none

/-- The metadata object of a raw collaborator record (the fields the
orchestrator reads). -/
structure RawMeta where
  sourceURL : Option String := none
  title : Option String := none
  description : Option String := none
  language : Option String := none
  statusCode : Option Int := none

/-- One raw record of a collaborator crawl response (the fields the
orchestrator reads). -/
structure RawPage where
  url : Option String := none
  markdown : Option String := none
  html : Option String := none
  text : Option String := none
  content : Option String := none
  excerpt : Option String := none
  metadata : Option RawMeta := none

/-- The requested output format (`'markdown' | 'html' | 'text'`). -/
inductive OutputFormat
  | markdown
  | html
  | text
deriving DecidableEq, Repr

/-- Model of `WebExtractor.extractContent`: select the requested format's payload,
falling back to the generic `content` field, then to `""` (JavaScript `||`
chains, so empty payloads also fall through). -/
def extractContent (p : RawPage) (format : OutputFormat) : String :=
  match format with
  | OutputFormat.markdown => getNE p.markdown (getNE p.content "")
  | OutputFormat.html => getNE p.html (getNE p.content "")
  | OutputFormat.text => getNE p.text (getNE p.content "")

/-- Model of `PageMetadata` (types.ts) as built by `buildMetadata`; the `scrapedAt`
wall-clock timestamp is not modelled. -/
structure PageMetadata where
  sourceUrl : String
  description : Option String
  wordCount : Nat
  language : Option String
  statusCode : Option Int

/-- Model of `WebExtractor.buildMetadata`: the word count and the language-detection
fallback are always computed from the markdown-format payload
(`this.extractContent(page, 'markdown')`), whatever format the caller
requested. -/
def buildMetadata (p : RawPage) (normalizedUrl : String) : PageMetadata :=
  let content := extractContent p OutputFormat.markdown
  { sourceUrl := normalizedUrl
    description := (toNE (p.metadata.bind fun m => m.description)).orElse fun _ => toNE p.excerpt
    wordCount := countWords content
    language := (toNE (p.metadata.bind fun m => m.language)).orElse fun _ => detectLanguage content
    statusCode := p.metadata.bind fun m => m.statusCode }

/-- Model of `ExtractedPage` (types.ts). -/
structure ExtractedPage where
  title : String
  content : String
  url : String
  metadata : PageMetadata

/-- Model of `FailedExtraction` (types.ts); the optional `statusCode` is never set
by `extractWebsite`. -/
structure FailedExtraction where
  url : String
  error : String

/-- Model of `ExtractionStats` (types.ts) without the wall-clock `duration`.  The
source computes `successRate` as
`(pages.length / (pages.length + failed.length)) * 100` with no guard;
the JavaScript `0/0 = NaN` case is modelled as `none`. -/
structure ExtractionStats where
  successRate : Option ℚ
  totalWords : Nat
  avgWordsPerPage : ℚ

/-- Model of `ExtractionResult` (types.ts). -/
structure ExtractionResult where
  pages : List ExtractedPage
  totalPages : Nat
  failed : List FailedExtraction
  stats : ExtractionStats

/-- Model of `ExtractWebsiteOptions` (types.ts) with its documented defaults.  The
`titlePre` field models the source's title-prefixing option (an optional
string prepended as `tp + " - "` to every page title); regex pattern lists
are modelled as predicate lists. -/
structure ExtractWebsiteOptions where
  maxPages : Nat := 10
  includeSubdomains : Bool := false
  titlePre : Option String := none
  onlyMainContent : Bool := true
  format : OutputFormat := OutputFormat.markdown
  maxDepth : Nat := 3
  followExternalLinks : Bool := false
  includePatterns : Option (List (String → Bool)) := none
  excludePatterns : Option (List (String → Bool)) := none

/-- The `limit` passed to the collaborator's crawl call:
`Math.min(maxPages, 100)` (web-extractor.ts line 125, `// Hard limit`). -/
def crawlRequestLimit (o : ExtractWebsiteOptions) : Nat :=
  min o.maxPages 100

/-- The source URL of a raw record as the per-record loop reads it:
`page.metadata?.sourceURL || url` (the seed), with no `page.url`
fallback. -/
def pageSourceUrl (seed : String) (p : RawPage) : String :=
  getNE (p.metadata.bind fun m => m.sourceURL) seed

/-- Model of `new URL(url).pathname` for an already-validated URL. -/
def pathnameOf (url : String) : String :=
  match parseUrl url.toList with
  | some u => ⟨u.pathname⟩
  | none => ""

/-- The body of the per-record `try`/`catch` in `extractWebsite`:
`some (Sum.inl page)` appends a Page Record, `some (Sum.inr f)` appends a
Failure Record (the caught per-record error), `none` is the silent
`continue` for records whose source URL is not in the surviving URL list.
The source normalizes the record URL (the only throwing step) before the
membership test, so an unparseable source URL becomes a Failure Record
even though it is also absent from the deduplicated list.
`pageTitle` is the title computation of the same loop:
`page.metadata?.title || new URL(pageUrl).pathname`, with the optional
`titlePrefix` option prepended as `tp + " - "` when it is a non-empty
string. -/
def pageTitle (seed : String) (titlePre : Option String) (p : RawPage) : String :=
  let t0 := getNE (p.metadata.bind fun m => m.title) (pathnameOf (pageSourceUrl seed p))
  match titlePre with
  | some tp => if tp = "" then t0 else tp ++ " - " ++ t0
  | none => t0

/-- The body of the per-record `try`/`catch` in `extractWebsite`:
`some (Sum.inl page)` appends a Page Record, `some (Sum.inr f)` appends a
Failure Record (the caught per-record error), `none` is the silent
`continue` for records whose source URL is not in the surviving URL list. -/
def processPage (seed : String) (urls : List String) (format : OutputFormat)
    (titlePre : Option String) (p : RawPage) :
    Option (ExtractedPage ⊕ FailedExtraction) :=
  match normalizeUrl (pageSourceUrl seed p) {} with
  | none =>
    some (Sum.inr
      { url := getNE p.url "unknown"
        error := "Invalid URL: " ++ pageSourceUrl seed p })
  | some nurl =>
    if urls.contains (pageSourceUrl seed p) then
      some (Sum.inl {
        title := pageTitle seed titlePre p
        content := cleanContent (extractContent p format)
        url := nurl
        metadata := buildMetadata p nurl })
    else none

/-- The post-crawl orchestration of `WebExtractor.extractWebsite` given the
collaborator's raw record list `data`: collect source URLs (with
`page.metadata?.sourceURL || page.url || url` fallbacks), deduplicate,
pattern-filter if either pattern list was supplied, process every record,
and assemble the result and statistics.  `none` models the `Invalid URL`
error thrown for an unparseable seed URL. -/
def extractWebsite (url : String) (o : ExtractWebsiteOptions) (data : List RawPage) :
    Option ExtractionResult :=
  match normalizeUrl url {} with
  | none => none
  | some _ =>
    let urls0 := data.map fun p => getNE (p.metadata.bind fun m => m.sourceURL) (getNE p.url url)
    let urls1 := deduplicateUrls urls0 {}
    let urls2 :=
      if o.includePatterns.isSome ∨ o.excludePatterns.isSome then
        filterUrlsByPattern urls1 o.includePatterns o.excludePatterns
      else urls1
    let pf := data.foldl (fun acc p =>
      match processPage url urls2 o.format o.titlePre p with
      | some (Sum.inl pg) => (acc.1 ++ [pg], acc.2)
      | some (Sum.inr f) => (acc.1, acc.2 ++ [f])
      | none => acc) ([], [])
    let total := pf.1.length + pf.2.length
    let totalWords := (pf.1.map fun pg => pg.metadata.wordCount).sum
    some {
      pages := pf.1
      totalPages := total
      failed := pf.2
      stats := {
        successRate := if total = 0 then none else some ((pf.1.length : ℚ) / (total : ℚ) * 100)
        totalWords := totalWords
        avgWordsPerPage :=
          if pf.1.length > 0 then (totalWords : ℚ) / (pf.1.length : ℚ) else 0 } }

/-! ## Concrete collaborator-response fixtures used in scenario theorems -/

/-- A well-formed raw crawl record with the given source URL. -/
def okRec (u : String) : RawPage :=
  { markdown := some "hello world", metadata := some { sourceURL := some u } }

/-- A raw crawl record whose source URL does not parse. -/
def badSourceRec : RawPage :=
  { metadata := some { sourceURL := some "not a url" } }

/-- Five raw records, exactly one with an unparseable source URL. -/
def mixedCrawlData : List RawPage :=
  [okRec "https://site.com/p1", okRec "https://site.com/p2", okRec "https://site.com/p3",
   okRec "https://site.com/p4", badSourceRec]

/-- Two raw records whose source URLs normalize to the same key. -/
def duplicateCrawlData : List RawPage :=
  [okRec "https://site.com/a", okRec "https://site.com/a/"]

/-- The result `extractWebsite` assembles for an empty collaborator
response. -/
def emptyCrawlResult : ExtractionResult :=
  { pages := [], totalPages := 0, failed := [],
    stats := { successRate := none, totalWords := 0, avgWordsPerPage := 0 } }

/-! # Theorems -/

/-! ## Character and generic list lemmas -/

theorem toNat_ofNat_of_lt {n : Nat} (h : n < 55296) : (Char.ofNat n).toNat = n := by
  unfold Char.ofNat
  split
  · rfl
  · exact absurd (Or.inl h) (by assumption)

theorem lowerChar_toNat (c : Char) :
    (lowerChar c).toNat = if 65 ≤ c.toNat ∧ c.toNat ≤ 90 then c.toNat + 32 else c.toNat := by
  unfold lowerChar isUpperAscii
  by_cases h : 65 ≤ c.toNat ∧ c.toNat ≤ 90
  · rw [if_pos (decide_eq_true h), if_pos h, toNat_ofNat_of_lt (by omega)]
  · rw [if_neg (by simp [h]), if_neg h]

theorem lowerChar_of_not_upper (c : Char) (h : ¬(65 ≤ c.toNat ∧ c.toNat ≤ 90)) :
    lowerChar c = c := by
  unfold lowerChar isUpperAscii
  rw [if_neg (by simp [h])]

theorem lowerChar_not_upper (c : Char) :
    ¬(65 ≤ (lowerChar c).toNat ∧ (lowerChar c).toNat ≤ 90) := by
  rw [lowerChar_toNat]
  split <;> omega

theorem lowerChar_idem (c : Char) : lowerChar (lowerChar c) = lowerChar c :=
  lowerChar_of_not_upper _ (lowerChar_not_upper c)

theorem lowerStr_idem (l : List Char) : lowerStr (lowerStr l) = lowerStr l := by
  simp only [lowerStr, List.map_map]
  exact List.map_eq_map_iff.mpr fun a _ => lowerChar_idem a

theorem lowerStr_ne_nil {l : List Char} (h : l ≠ []) : lowerStr l ≠ [] := by
  simpa [lowerStr] using h

theorem splitWsGo_skip_ne_nil (l : List Char) :
    (∀ cur, splitWsGo cur l ≠ []) ∧ splitWsSkip l ≠ [] := by
  induction l with
  | nil => exact ⟨fun cur => by simp [splitWsGo], by simp [splitWsSkip]⟩
  | cons c cs ih =>
    constructor
    · intro cur
      rw [splitWsGo]
      by_cases hc : isWsChar c
      · rw [if_pos hc]
        simp
      · rw [if_neg hc]
        exact ih.1 (c :: cur)
    · rw [splitWsSkip]
      by_cases hc : isWsChar c
      · rw [if_pos hc]
        exact ih.2
      · rw [if_neg hc]
        exact ih.1 [c]

theorem splitWs_ne_nil (l : List Char) : splitWs l ≠ [] :=
  (splitWsGo_skip_ne_nil l).1 []

theorem takeWhile_append_all {α : Type} (p : α → Bool) (xs ys : List α)
    (hx : ∀ x ∈ xs, p x = true) :
    (xs ++ ys).takeWhile p = xs ++ ys.takeWhile p := by
  induction xs with
  | nil => rfl
  | cons a as ih =>
    have ha := hx a (by simp)
    have ih' := ih fun x hm => hx x (by simp [hm])
    simp [List.takeWhile_cons, ha, ih']

theorem dropWhile_append_all {α : Type} (p : α → Bool) (xs ys : List α)
    (hx : ∀ x ∈ xs, p x = true) :
    (xs ++ ys).dropWhile p = ys.dropWhile p := by
  induction xs with
  | nil => rfl
  | cons a as ih =>
    have ha := hx a (by simp)
    have ih' := ih fun x hm => hx x (by simp [hm])
    simp [List.dropWhile_cons, ha, ih']

theorem takeWhile_eq_self_of_all {α : Type} (p : α → Bool) (xs : List α)
    (hx : ∀ x ∈ xs, p x = true) : xs.takeWhile p = xs := by
  simpa using takeWhile_append_all p xs [] hx

theorem dropWhile_eq_nil_of_all {α : Type} (p : α → Bool) (xs : List α)
    (hx : ∀ x ∈ xs, p x = true) : xs.dropWhile p = [] := by
  simpa using dropWhile_append_all p xs [] hx

theorem takeWhile_stop {α : Type} (p : α → Bool) (y : α) (ys : List α)
    (hy : p y = false) : (y :: ys).takeWhile p = [] := by
  simp [List.takeWhile_cons, hy]

theorem dropWhile_stop {α : Type} (p : α → Bool) (y : α) (ys : List α)
    (hy : p y = false) : (y :: ys).dropWhile p = y :: ys := by
  simp [List.dropWhile_cons, hy]

theorem char_eq_of_toNat_eq {c d : Char} (h : c.toNat = d.toNat) : c = d :=
  Char.ext (UInt32.ext h)

theorem char_eq_iff_toNat (c d : Char) : c = d ↔ c.toNat = d.toNat :=
  ⟨fun h => by rw [h], char_eq_of_toNat_eq⟩

theorem hostCharOK_arith (c : Char) :
    hostCharOK c = true ↔
      (65 ≤ c.toNat ∧ c.toNat ≤ 90) ∨ (97 ≤ c.toNat ∧ c.toNat ≤ 122) ∨
        (48 ≤ c.toNat ∧ c.toNat ≤ 57) ∨ c.toNat = 46 ∨ c.toNat = 45 := by
  simp only [hostCharOK, Bool.or_eq_true, decide_eq_true_eq, char_eq_iff_toNat,
    show ('.' : Char).toNat = 46 from rfl, show ('-' : Char).toNat = 45 from rfl]
  omega

theorem pathCharOK_arith (c : Char) :
    pathCharOK c = true ↔
      (65 ≤ c.toNat ∧ c.toNat ≤ 90) ∨ (97 ≤ c.toNat ∧ c.toNat ≤ 122) ∨
        (48 ≤ c.toNat ∧ c.toNat ≤ 57) ∨ c.toNat = 47 ∨ c.toNat = 45 ∨ c.toNat = 46 ∨
        c.toNat = 95 ∨ c.toNat = 126 := by
  simp only [pathCharOK, Bool.or_eq_true, decide_eq_true_eq, char_eq_iff_toNat,
    show ('/' : Char).toNat = 47 from rfl, show ('-' : Char).toNat = 45 from rfl,
    show ('.' : Char).toNat = 46 from rfl, show ('_' : Char).toNat = 95 from rfl,
    show ('~' : Char).toNat = 126 from rfl]
  omega

theorem queryCharOK_arith (c : Char) :
    queryCharOK c = true ↔
      (65 ≤ c.toNat ∧ c.toNat ≤ 90) ∨ (97 ≤ c.toNat ∧ c.toNat ≤ 122) ∨
        (48 ≤ c.toNat ∧ c.toNat ≤ 57) ∨ c.toNat = 42 ∨ c.toNat = 45 ∨ c.toNat = 46 ∨
        c.toNat = 95 ∨ c.toNat = 38 ∨ c.toNat = 61 := by
  simp only [queryCharOK, Bool.or_eq_true, decide_eq_true_eq, char_eq_iff_toNat,
    show ('*' : Char).toNat = 42 from rfl, show ('-' : Char).toNat = 45 from rfl,
    show ('.' : Char).toNat = 46 from rfl, show ('_' : Char).toNat = 95 from rfl,
    show ('&' : Char).toNat = 38 from rfl, show ('=' : Char).toNat = 61 from rfl]
  omega

theorem hostEndChar_arith (c : Char) :
    hostEndChar c = true ↔ c.toNat = 47 ∨ c.toNat = 63 ∨ c.toNat = 35 := by
  simp only [hostEndChar, Bool.or_eq_true, decide_eq_true_eq, char_eq_iff_toNat,
    show ('/' : Char).toNat = 47 from rfl, show ('?' : Char).toNat = 63 from rfl,
    show ('#' : Char).toNat = 35 from rfl]
  omega

theorem pathEndChar_arith (c : Char) :
    pathEndChar c = true ↔ c.toNat = 63 ∨ c.toNat = 35 := by
  simp only [pathEndChar, Bool.or_eq_true, decide_eq_true_eq, char_eq_iff_toNat,
    show ('?' : Char).toNat = 63 from rfl, show ('#' : Char).toNat = 35 from rfl]

theorem hostCharOK_not_end {c : Char} (h : hostCharOK c = true) : hostEndChar c = false := by
  rcases Bool.eq_false_or_eq_true (hostEndChar c) with ht | hf
  case inr => exact hf
  case inl =>
    exact absurd ((hostEndChar_arith c).mp ht) (by have := (hostCharOK_arith c).mp h; omega)

theorem pathCharOK_not_end {c : Char} (h : pathCharOK c = true) : pathEndChar c = false := by
  rcases Bool.eq_false_or_eq_true (pathEndChar c) with ht | hf
  case inr => exact hf
  case inl =>
    exact absurd ((pathEndChar_arith c).mp ht) (by have := (pathCharOK_arith c).mp h; omega)

theorem queryCharOK_ne_hash {c : Char} (h : queryCharOK c = true) : c ≠ '#' :=
  fun he => absurd (he ▸ h) (by decide)

theorem queryCharOK_ne_slash {c : Char} (h : queryCharOK c = true) : c ≠ '/' :=
  fun he => absurd (he ▸ h) (by decide)

theorem hostCharOK_ne_slash {c : Char} (h : hostCharOK c = true) : c ≠ '/' :=
  fun he => absurd (he ▸ h) (by decide)

theorem hostCharOK_lowerChar {c : Char} (h : hostCharOK c = true) :
    hostCharOK (lowerChar c) = true := by
  apply (hostCharOK_arith _).mpr
  have h1 := (hostCharOK_arith c).mp h
  rw [lowerChar_toNat]
  split <;> omega

/-! ## Parsing-support lemmas -/

theorem dropScheme_append (sch r : List Char)
    (h : sch = "http".toList ∨ sch = "https".toList) :
    dropScheme (sch ++ ':' :: '/' :: '/' :: r) = some (sch, r) := by
  rcases h with h | h <;> subst h <;> rfl

theorem dropScheme_some {l sch r : List Char} (h : dropScheme l = some (sch, r)) :
    (sch = "http".toList ∨ sch = "https".toList) ∧ l = sch ++ ':' :: '/' :: '/' :: r := by
  unfold dropScheme at h
  split at h
  · obtain ⟨rfl, rfl⟩ := Prod.mk.inj (Option.some.inj h)
    exact ⟨Or.inr rfl, rfl⟩
  · obtain ⟨rfl, rfl⟩ := Prod.mk.inj (Option.some.inj h)
    exact ⟨Or.inl rfl, rfl⟩
  · exact absurd h (by simp)

theorem takeWhile_head {α : Type} {p : α → Bool} {l : List α} {x : α} {xs : List α}
    (h : l.takeWhile p = x :: xs) : l.head? = some x ∧ p x = true := by
  cases l with
  | nil => simp at h
  | cons a as =>
    rw [List.takeWhile_cons] at h
    rcases Bool.eq_false_or_eq_true (p a) with h1 | h1
    · simp only [h1] at h
      obtain ⟨rfl, -⟩ := List.cons.inj h
      exact ⟨rfl, h1⟩
    · simp [h1] at h

theorem dropWhile_head {α : Type} {p : α → Bool} {l : List α} {x : α} {xs : List α}
    (h : l.dropWhile p = x :: xs) : p x = false := by
  induction l with
  | nil => simp at h
  | cons a as ih =>
    rw [List.dropWhile_cons] at h
    rcases Bool.eq_false_or_eq_true (p a) with h1 | h1
    · simp only [h1] at h
      exact ih h
    · simp only [h1] at h
      obtain ⟨rfl, -⟩ := List.cons.inj h
      exact h1

theorem splitOn_ne_nil (sep : Char) (l : List Char) : splitOn sep l ≠ [] := by
  induction l with
  | nil => simp [splitOn]
  | cons a as ih =>
    rw [splitOn]
    by_cases ha : a = sep
    · simp [ha]
    · rw [if_neg ha]
      cases hs : splitOn sep as with
      | nil => simp
      | cons s ss => simp

theorem splitOn_chars {sep : Char} {q piece : List Char} {c : Char}
    (hp : piece ∈ splitOn sep q) (hc : c ∈ piece) : c ∈ q := by
  induction q generalizing piece with
  | nil =>
    simp [splitOn] at hp
    subst hp
    simp at hc
  | cons a as ih =>
    rw [splitOn] at hp
    by_cases ha : a = sep
    · rw [if_pos ha] at hp
      rcases List.mem_cons.mp hp with h | h
      · subst h; simp at hc
      · exact List.mem_cons_of_mem _ (ih h hc)
    · rw [if_neg ha] at hp
      cases hs : splitOn sep as with
      | nil => exact absurd hs (splitOn_ne_nil sep as)
      | cons s ss =>
        rw [hs] at hp
        rcases List.mem_cons.mp hp with h | h
        · subst h
          rcases List.mem_cons.mp hc with h' | h'
          · subst h'; simp
          · exact List.mem_cons_of_mem _ (ih (hs ▸ List.mem_cons_self s ss) h')
        · exact List.mem_cons_of_mem _ (ih (hs ▸ List.mem_cons_of_mem s h) hc)

theorem splitOn_no_sep {sep : Char} {q piece : List Char}
    (hp : piece ∈ splitOn sep q) : sep ∉ piece := by
  induction q generalizing piece with
  | nil =>
    simp [splitOn] at hp
    subst hp
    simp
  | cons a as ih =>
    rw [splitOn] at hp
    by_cases ha : a = sep
    · rw [if_pos ha] at hp
      rcases List.mem_cons.mp hp with h | h
      · subst h; simp
      · exact ih h
    · rw [if_neg ha] at hp
      cases hs : splitOn sep as with
      | nil => exact absurd hs (splitOn_ne_nil sep as)
      | cons s ss =>
        rw [hs] at hp
        rcases List.mem_cons.mp hp with h | h
        · subst h
          intro hmem
          rcases List.mem_cons.mp hmem with h' | h'
          · exact ha h'.symm
          · exact ih (hs ▸ List.mem_cons_self s ss) h'
        · exact ih (hs ▸ List.mem_cons_of_mem s h)

theorem splitOn_append_sep (sep : Char) (l : List Char) :
    splitOn sep (l ++ [sep]) = splitOn sep l ++ [[]] := by
  induction l with
  | nil => simp [splitOn]
  | cons a as ih =>
    by_cases ha : a = sep
    · rw [List.cons_append, splitOn, if_pos ha, ih, splitOn, if_pos ha, List.cons_append]
    · rw [List.cons_append, splitOn, if_neg ha, ih, splitOn, if_neg ha]
      cases hs : splitOn sep as with
      | nil => exact absurd hs (splitOn_ne_nil sep as)
      | cons s ss => simp

theorem splitOn_of_no_sep {sep : Char} {piece : List Char} (h : sep ∉ piece) :
    splitOn sep piece = [piece] := by
  induction piece with
  | nil => rfl
  | cons a as ih =>
    rw [splitOn, if_neg (fun he => h (by simp [he])), ih (fun hm => h (by simp [hm]))]

theorem splitOn_no_sep_append {sep : Char} {piece rest : List Char} (h : sep ∉ piece) :
    splitOn sep (piece ++ sep :: rest) = piece :: splitOn sep rest := by
  induction piece with
  | nil => simp [splitOn]
  | cons a as ih =>
    rw [List.cons_append, splitOn, if_neg (fun he => h (by simp [he])),
      ih (fun hm => h (by simp [hm]))]

/-! ## Query-pair lemmas -/

theorem splitEqAt_no_eq_key (piece : List Char) : '=' ∉ (splitEqAt piece).1 := by
  induction piece with
  | nil => simp [splitEqAt]
  | cons c cs ih =>
    rw [splitEqAt]
    by_cases hc : c = '='
    · rw [if_pos hc]; simp
    · rw [if_neg hc]
      intro hm
      rcases List.mem_cons.mp hm with h | h
      · exact hc h.symm
      · exact ih h

theorem splitEqAt_chars_key {piece : List Char} {x : Char}
    (h : x ∈ (splitEqAt piece).1) : x ∈ piece := by
  induction piece with
  | nil => simp [splitEqAt] at h
  | cons c cs ih =>
    rw [splitEqAt] at h
    by_cases hc : c = '='
    · rw [if_pos hc] at h; simp at h
    · rw [if_neg hc] at h
      rcases List.mem_cons.mp h with h' | h'
      · subst h'; simp
      · exact List.mem_cons_of_mem _ (ih h')

theorem splitEqAt_chars_val {piece : List Char} {x : Char}
    (h : x ∈ (splitEqAt piece).2) : x ∈ piece := by
  induction piece with
  | nil => simp [splitEqAt] at h
  | cons c cs ih =>
    rw [splitEqAt] at h
    by_cases hc : c = '='
    · rw [if_pos hc] at h
      exact List.mem_cons_of_mem _ h
    · rw [if_neg hc] at h
      exact List.mem_cons_of_mem _ (ih h)

theorem splitEqAt_append {k v : List Char} (hk : '=' ∉ k) :
    splitEqAt (k ++ '=' :: v) = (k, v) := by
  induction k with
  | nil => simp [splitEqAt]
  | cons c cs ih =>
    rw [List.cons_append, splitEqAt, if_neg (fun he => hk (by simp [he])),
      ih (fun hm => hk (by simp [hm]))]

theorem parsePairs_wf (q : List Char) : PairsWf (parsePairs q) := by
  intro p hp
  simp only [parsePairs, List.mem_map, List.mem_filter] at hp
  obtain ⟨piece, ⟨hpiece, -⟩, rfl⟩ := hp
  have hamp : '&' ∉ piece := splitOn_no_sep hpiece
  exact ⟨⟨fun hm => hamp (splitEqAt_chars_key hm), splitEqAt_no_eq_key piece⟩,
    fun hm => hamp (splitEqAt_chars_val hm)⟩

theorem serializePairs_ne_amp {p : List Char × List Char}
    (hk : '&' ∉ p.1) (hv : '&' ∉ p.2) : '&' ∉ p.1 ++ '=' :: p.2 := by
  intro hm
  rcases List.mem_append.mp hm with h | h
  · exact hk h
  · rcases List.mem_cons.mp h with h' | h'
    · exact absurd h' (by decide)
    · exact hv h'

theorem parsePairs_cons {piece r : List Char} (hamp : '&' ∉ piece) (hne : piece ≠ []) :
    parsePairs (piece ++ '&' :: r) = splitEqAt piece :: parsePairs r := by
  simp only [parsePairs, splitOn_no_sep_append hamp]
  rw [List.filter_cons, if_pos (by simpa using hne)]
  simp

theorem parsePairs_serializePairs {ps : List (List Char × List Char)} (h : PairsWf ps) :
    parsePairs (serializePairs ps) = ps := by
  induction ps using serializePairs.induct with
  | case1 => rfl
  | case2 p =>
    obtain ⟨⟨hk1, hk2⟩, hv⟩ := h p (by simp)
    rw [serializePairs, parsePairs, splitOn_of_no_sep (serializePairs_ne_amp hk1 hv)]
    rw [List.filter_cons, if_pos (by simp)]
    simp [splitEqAt_append hk2]
  | case3 p q ps ih =>
    obtain ⟨⟨hk1, hk2⟩, hv⟩ := h p (by simp)
    have hrest : PairsWf (q :: ps) := fun x hx => h x (by simp [List.mem_cons] at hx ⊢; tauto)
    rw [serializePairs, parsePairs_cons (serializePairs_ne_amp hk1 hv) (by simp),
      splitEqAt_append hk2, ih hrest]

theorem serializePairs_chars {ps : List (List Char × List Char)} {c : Char}
    (h : c ∈ serializePairs ps) :
    c = '&' ∨ c = '=' ∨ ∃ p ∈ ps, c ∈ p.1 ∨ c ∈ p.2 := by
  induction ps using serializePairs.induct with
  | case1 => simp [serializePairs] at h
  | case2 p =>
    rw [serializePairs] at h
    rcases List.mem_append.mp h with h' | h'
    · exact Or.inr (Or.inr ⟨p, by simp, Or.inl h'⟩)
    · rcases List.mem_cons.mp h' with h'' | h''
      · exact Or.inr (Or.inl h'')
      · exact Or.inr (Or.inr ⟨p, by simp, Or.inr h''⟩)
  | case3 p q ps ih =>
    rw [serializePairs] at h
    rcases List.mem_append.mp h with h' | h'
    · rcases List.mem_append.mp h' with h2 | h2
      · exact Or.inr (Or.inr ⟨p, by simp, Or.inl h2⟩)
      · rcases List.mem_cons.mp h2 with h3 | h3
        · exact Or.inr (Or.inl h3)
        · exact Or.inr (Or.inr ⟨p, by simp, Or.inr h3⟩)
    · rcases List.mem_cons.mp h' with h2 | h2
      · exact Or.inl h2
      · rcases ih h2 with h5 | h5 | ⟨r, hr, h5⟩
        · exact Or.inl h5
        · exact Or.inr (Or.inl h5)
        · exact Or.inr (Or.inr ⟨r, by simp [List.mem_cons] at hr ⊢; tauto, h5⟩)

theorem keyLt_asymm {a b : List Char} (h : keyLt a b = true) : keyLt b a = false := by
  induction a generalizing b with
  | nil =>
    cases b with
    | nil => simp [keyLt] at h
    | cons x xs => rfl
  | cons x xs ih =>
    cases b with
    | nil => simp [keyLt] at h
    | cons y ys =>
      rw [keyLt] at h ⊢
      by_cases h1 : x.toNat < y.toNat
      · rw [if_neg (by omega), if_pos h1]
      · rw [if_neg h1] at h
        by_cases h2 : y.toNat < x.toNat
        · rw [if_pos h2] at h; exact absurd h (by simp)
        · rw [if_neg h2] at h
          rw [if_neg h2, if_neg h1]
          exact ih h

theorem insertPair_mem {p x : List Char × List Char} {l : List (List Char × List Char)}
    (h : x ∈ insertPair p l) : x = p ∨ x ∈ l := by
  induction l with
  | nil => simp [insertPair] at h; exact Or.inl h
  | cons q qs ih =>
    rw [insertPair] at h
    by_cases hlt : keyLt q.1 p.1 = true
    · rw [if_pos hlt] at h
      rcases List.mem_cons.mp h with h' | h'
      · exact Or.inr (by simp [h'])
      · rcases ih h' with h'' | h''
        · exact Or.inl h''
        · exact Or.inr (List.mem_cons_of_mem _ h'')
    · rw [if_neg hlt] at h
      rcases List.mem_cons.mp h with h' | h'
      · exact Or.inl h'
      · exact Or.inr h'

theorem sortPairs_mem {x : List Char × List Char} {l : List (List Char × List Char)}
    (h : x ∈ sortPairs l) : x ∈ l := by
  induction l with
  | nil => simp [sortPairs] at h
  | cons p ps ih =>
    rw [sortPairs] at h
    rcases insertPair_mem h with h' | h'
    · simp [h']
    · exact List.mem_cons_of_mem _ (ih h')

theorem sortedPairs_insertPair (p : List Char × List Char)
    {l : List (List Char × List Char)} (h : SortedPairs l) :
    SortedPairs (insertPair p l) := by
  induction l with
  | nil => simp [insertPair, SortedPairs]
  | cons q qs ih =>
    rw [insertPair]
    by_cases hlt : keyLt q.1 p.1 = true
    · rw [if_pos hlt]
      have hs : SortedPairs qs := (List.chain'_cons'.mp h).2
      apply List.chain'_cons'.mpr
      refine ⟨?_, ih hs⟩
      intro y hy
      cases qs with
      | nil =>
        simp [insertPair] at hy
        subst hy
        exact keyLt_asymm hlt
      | cons r rs =>
        rw [insertPair] at hy
        by_cases hlt2 : keyLt r.1 p.1 = true
        · rw [if_pos hlt2] at hy
          simp at hy
          subst hy
          exact (List.chain'_cons.mp h).1
        · rw [if_neg hlt2] at hy
          simp at hy
          subst hy
          exact keyLt_asymm hlt
    · rw [if_neg hlt]
      exact List.chain'_cons.mpr ⟨Bool.eq_false_iff.mpr hlt, h⟩

theorem sortPairs_sorted (l : List (List Char × List Char)) : SortedPairs (sortPairs l) := by
  induction l with
  | nil => simp [sortPairs, SortedPairs]
  | cons p ps ih => exact sortedPairs_insertPair p ih

theorem sortPairs_eq_of_sorted {l : List (List Char × List Char)} (h : SortedPairs l) :
    sortPairs l = l := by
  induction l with
  | nil => rfl
  | cons p ps ih =>
    rw [sortPairs, ih (List.chain'_cons'.mp h).2]
    cases ps with
    | nil => rfl
    | cons q qs =>
      rw [insertPair, if_neg (Bool.eq_false_iff.mp (List.chain'_cons.mp h).1)]

theorem sortPairs_idem (l : List (List Char × List Char)) :
    sortPairs (sortPairs l) = sortPairs l :=
  sortPairs_eq_of_sorted (sortPairs_sorted l)

theorem parse_serializeUrl {u : URLObj} (h : u.Wf) : parseUrl (serializeUrl u) = some u := by
  obtain ⟨sch, host, path, search, hash⟩ := u
  obtain ⟨hsch, hhne, hhall, hhlow, hpne, hphead, hpall, hpdot, hqall⟩ := h
  simp only at hsch hhne hhall hhlow hpne hphead hpall hpdot hqall
  obtain ⟨pt, rfl⟩ : ∃ pt, path = '/' :: pt := by
    cases hp : path with
    | nil => exact absurd hp hpne
    | cons a as =>
      refine ⟨as, ?_⟩
      rw [hp] at hphead
      simp only [List.head?_cons, Option.some.injEq] at hphead
      rw [hphead]
  have hostPred : ∀ x ∈ host, (!hostEndChar x) = true := fun x hx => by
    rw [hostCharOK_not_end (List.all_eq_true.mp hhall x hx)]; rfl
  have pathPred : ∀ x ∈ '/' :: pt, (!pathEndChar x) = true := fun x hx => by
    rw [pathCharOK_not_end (List.all_eq_true.mp hpall x hx)]; rfl
  have haq : ∀ x ∈ search, queryCharOK x = true := List.all_eq_true.mp hqall
  have qPred : ∀ x ∈ search, (!decide (x = '#')) = true := fun x hx => by
    simp [queryCharOK_ne_hash (haq x hx)]
  have hguard : (decide (host = []) || !host.all hostCharOK) = false := by
    simp [hhne, hhall]
  by_cases hS : search = [] <;> by_cases hH : hash = []
  · -- no query, no fragment
    subst hS; subst hH
    have hd : dropScheme (serializeUrl ⟨sch, host, '/' :: pt, [], []⟩) =
        some (sch, host ++ ('/' :: pt)) := by
      rw [show serializeUrl ⟨sch, host, '/' :: pt, [], []⟩ =
        sch ++ ':' :: '/' :: '/' :: (host ++ ('/' :: pt)) by
          simp [serializeUrl, List.append_assoc]]
      exact dropScheme_append _ _ hsch
    have hTake : List.takeWhile (fun c => !hostEndChar c) (host ++ ('/' :: pt)) = host := by
      rw [takeWhile_append_all _ _ _ hostPred, takeWhile_stop _ '/' _ (by decide),
        List.append_nil]
    have hDrop : List.dropWhile (fun c => !hostEndChar c) (host ++ ('/' :: pt)) = '/' :: pt := by
      rw [dropWhile_append_all _ _ _ hostPred, dropWhile_stop _ '/' _ (by decide)]
    have hPTake : List.takeWhile (fun c => !pathEndChar c) ('/' :: pt) = '/' :: pt :=
      takeWhile_eq_self_of_all _ _ pathPred
    have hPDrop : List.dropWhile (fun c => !pathEndChar c) ('/' :: pt) = [] :=
      dropWhile_eq_nil_of_all _ _ pathPred
    unfold parseUrl
    rw [hd]
    dsimp only
    rw [hTake, hDrop, hPTake, hPDrop]
    simp [hhne, hhall, hpall, hpdot, hhlow]
  · -- no query, fragment present
    subst hS
    have hd : dropScheme (serializeUrl ⟨sch, host, '/' :: pt, [], hash⟩) =
        some (sch, host ++ ('/' :: (pt ++ '#' :: hash))) := by
      rw [show serializeUrl ⟨sch, host, '/' :: pt, [], hash⟩ =
        sch ++ ':' :: '/' :: '/' :: (host ++ ('/' :: (pt ++ '#' :: hash))) by
          simp [serializeUrl, List.append_assoc, hH]]
      exact dropScheme_append _ _ hsch
    have hTake : List.takeWhile (fun c => !hostEndChar c)
        (host ++ ('/' :: (pt ++ '#' :: hash))) = host := by
      rw [takeWhile_append_all _ _ _ hostPred, takeWhile_stop _ '/' _ (by decide),
        List.append_nil]
    have hDrop : List.dropWhile (fun c => !hostEndChar c)
        (host ++ ('/' :: (pt ++ '#' :: hash))) = '/' :: (pt ++ '#' :: hash) := by
      rw [dropWhile_append_all _ _ _ hostPred, dropWhile_stop _ '/' _ (by decide)]
    have hPTake : List.takeWhile (fun c => !pathEndChar c)
        ('/' :: (pt ++ '#' :: hash)) = '/' :: pt := by
      rw [show ('/' : Char) :: (pt ++ '#' :: hash) = ('/' :: pt) ++ '#' :: hash from rfl,
        takeWhile_append_all _ _ _ pathPred, takeWhile_stop _ '#' _ (by decide),
        List.append_nil]
    have hPDrop : List.dropWhile (fun c => !pathEndChar c)
        ('/' :: (pt ++ '#' :: hash)) = '#' :: hash := by
      rw [show ('/' : Char) :: (pt ++ '#' :: hash) = ('/' :: pt) ++ '#' :: hash from rfl,
        dropWhile_append_all _ _ _ pathPred, dropWhile_stop _ '#' _ (by decide)]
    unfold parseUrl
    rw [hd]
    dsimp only
    rw [hTake, hDrop, hPTake, hPDrop]
    simp [hhne, hhall, hpall, hpdot, hhlow]
  · -- query present, no fragment
    subst hH
    have hd : dropScheme (serializeUrl ⟨sch, host, '/' :: pt, search, []⟩) =
        some (sch, host ++ ('/' :: (pt ++ '?' :: search))) := by
      rw [show serializeUrl ⟨sch, host, '/' :: pt, search, []⟩ =
        sch ++ ':' :: '/' :: '/' :: (host ++ ('/' :: (pt ++ '?' :: search))) by
          simp [serializeUrl, List.append_assoc, hS]]
      exact dropScheme_append _ _ hsch
    have hTake : List.takeWhile (fun c => !hostEndChar c)
        (host ++ ('/' :: (pt ++ '?' :: search))) = host := by
      rw [takeWhile_append_all _ _ _ hostPred, takeWhile_stop _ '/' _ (by decide),
        List.append_nil]
    have hDrop : List.dropWhile (fun c => !hostEndChar c)
        (host ++ ('/' :: (pt ++ '?' :: search))) = '/' :: (pt ++ '?' :: search) := by
      rw [dropWhile_append_all _ _ _ hostPred, dropWhile_stop _ '/' _ (by decide)]
    have hPTake : List.takeWhile (fun c => !pathEndChar c)
        ('/' :: (pt ++ '?' :: search)) = '/' :: pt := by
      rw [show ('/' : Char) :: (pt ++ '?' :: search) = ('/' :: pt) ++ '?' :: search from rfl,
        takeWhile_append_all _ _ _ pathPred, takeWhile_stop _ '?' _ (by decide),
        List.append_nil]
    have hPDrop : List.dropWhile (fun c => !pathEndChar c)
        ('/' :: (pt ++ '?' :: search)) = '?' :: search := by
      rw [show ('/' : Char) :: (pt ++ '?' :: search) = ('/' :: pt) ++ '?' :: search from rfl,
        dropWhile_append_all _ _ _ pathPred, dropWhile_stop _ '?' _ (by decide)]
    have hQTake : List.takeWhile (fun c => !decide (c = '#')) search = search :=
      takeWhile_eq_self_of_all _ _ qPred
    have hQDrop : List.dropWhile (fun c => !decide (c = '#')) search = [] :=
      dropWhile_eq_nil_of_all _ _ qPred
    unfold parseUrl
    rw [hd]
    dsimp only
    rw [hTake, hDrop, hPTake, hPDrop]
    simp [hhne, hhall, hpall, hpdot, hhlow, hqall, hQTake, hQDrop, haq]
  · -- query and fragment present
    have qhPred : ∀ x ∈ search ++ '#' :: hash, True := fun _ _ => trivial
    have hd : dropScheme (serializeUrl ⟨sch, host, '/' :: pt, search, hash⟩) =
        some (sch, host ++ ('/' :: (pt ++ '?' :: (search ++ '#' :: hash)))) := by
      rw [show serializeUrl ⟨sch, host, '/' :: pt, search, hash⟩ =
        sch ++ ':' :: '/' :: '/' :: (host ++ ('/' :: (pt ++ '?' :: (search ++ '#' :: hash)))) by
          simp [serializeUrl, List.append_assoc, hS, hH]]
      exact dropScheme_append _ _ hsch
    have hTake : List.takeWhile (fun c => !hostEndChar c)
        (host ++ ('/' :: (pt ++ '?' :: (search ++ '#' :: hash)))) = host := by
      rw [takeWhile_append_all _ _ _ hostPred, takeWhile_stop _ '/' _ (by decide),
        List.append_nil]
    have hDrop : List.dropWhile (fun c => !hostEndChar c)
        (host ++ ('/' :: (pt ++ '?' :: (search ++ '#' :: hash)))) =
        '/' :: (pt ++ '?' :: (search ++ '#' :: hash)) := by
      rw [dropWhile_append_all _ _ _ hostPred, dropWhile_stop _ '/' _ (by decide)]
    have hPTake : List.takeWhile (fun c => !pathEndChar c)
        ('/' :: (pt ++ '?' :: (search ++ '#' :: hash))) = '/' :: pt := by
      rw [show ('/' : Char) :: (pt ++ '?' :: (search ++ '#' :: hash)) =
        ('/' :: pt) ++ '?' :: (search ++ '#' :: hash) from rfl,
        takeWhile_append_all _ _ _ pathPred, takeWhile_stop _ '?' _ (by decide),
        List.append_nil]
    have hPDrop : List.dropWhile (fun c => !pathEndChar c)
        ('/' :: (pt ++ '?' :: (search ++ '#' :: hash))) = '?' :: (search ++ '#' :: hash) := by
      rw [show ('/' : Char) :: (pt ++ '?' :: (search ++ '#' :: hash)) =
        ('/' :: pt) ++ '?' :: (search ++ '#' :: hash) from rfl,
        dropWhile_append_all _ _ _ pathPred, dropWhile_stop _ '?' _ (by decide)]
    have hQTake : List.takeWhile (fun c => !decide (c = '#')) (search ++ '#' :: hash) =
        search := by
      rw [takeWhile_append_all _ _ _ qPred, takeWhile_stop _ '#' _ (by decide),
        List.append_nil]
    have hQDrop : List.dropWhile (fun c => !decide (c = '#')) (search ++ '#' :: hash) =
        '#' :: hash := by
      rw [dropWhile_append_all _ _ _ qPred, dropWhile_stop _ '#' _ (by decide)]
    unfold parseUrl
    rw [hd]
    dsimp only
    rw [hTake, hDrop, hPTake, hPDrop]
    simp [hhne, hhall, hpall, hpdot, hhlow, hqall, hQTake, hQDrop, haq]

theorem parseUrl_wf {l : List Char} {u : URLObj} (h : parseUrl l = some u) : u.Wf := by
  unfold parseUrl at h
  cases hd : dropScheme l with
  | none => rw [hd] at h; exact absurd h (by simp)
  | some p =>
    obtain ⟨sch, r0⟩ := p
    rw [hd] at h
    dsimp only at h
    obtain ⟨hschOr, -⟩ := dropScheme_some hd
    split at h
    · exact absurd h (by simp)
    next hg =>
      simp only [Bool.or_eq_true, decide_eq_true_eq, Bool.not_eq_true',
        not_or, Bool.not_eq_false] at hg
      obtain ⟨hne, hall⟩ := hg
      have hhost1 : lowerStr (List.takeWhile (fun c => !hostEndChar c) r0) ≠ [] :=
        lowerStr_ne_nil hne
      have hhost2 : (lowerStr (List.takeWhile (fun c => !hostEndChar c) r0)).all
          hostCharOK = true := by
        rw [List.all_eq_true] at hall ⊢
        intro x hx
        simp only [lowerStr, List.mem_map] at hx
        obtain ⟨y, hy, rfl⟩ := hx
        exact hostCharOK_lowerChar (hall y hy)
      split at h
      · -- path0 = [] : pathname is ['/']
        split at h
        next hchk =>
          obtain rfl := (Option.some.inj h).symm
          simp only [Bool.and_eq_true] at hchk
          obtain ⟨⟨hpall, hpdot⟩, hqall⟩ := hchk
          exact ⟨hschOr, hhost1, hhost2, lowerStr_idem _, by simp, by simp, hpall, hpdot, hqall⟩
        · exact absurd h (by simp)
      next hp0 =>
        split at h
        next hchk =>
          obtain rfl := (Option.some.inj h).symm
          simp only [Bool.and_eq_true] at hchk
          obtain ⟨⟨hpall, hpdot⟩, hqall⟩ := hchk
          refine ⟨hschOr, hhost1, hhost2, lowerStr_idem _, hp0, ?_, hpall, hpdot, hqall⟩
          show (List.takeWhile (fun c => !pathEndChar c)
            (List.dropWhile (fun c => !hostEndChar c) r0)).head? = some '/'
          cases hp : List.takeWhile (fun c => !pathEndChar c)
              (List.dropWhile (fun c => !hostEndChar c) r0) with
          | nil => exact absurd hp hp0
          | cons x xs =>
            obtain ⟨hhead, hpred⟩ := takeWhile_head hp
            cases hr1 : List.dropWhile (fun c => !hostEndChar c) r0 with
            | nil => rw [hr1] at hhead; simp at hhead
            | cons y ys =>
              rw [hr1] at hhead
              simp only [List.head?_cons, Option.some.injEq] at hhead
              subst hhead
              have hyend : hostEndChar y = true := by
                have := dropWhile_head hr1
                simpa using this
              have hynotp : pathEndChar y = false := by
                simpa using hpred
              have h47 : y.toNat = 47 := by
                have h1 := (hostEndChar_arith y).mp hyend
                have h2 : ¬(y.toNat = 63 ∨ y.toNat = 35) := fun hc =>
                  absurd ((pathEndChar_arith y).mpr hc) (by simp [hynotp])
                omega
              have hy' : y = ('/' : Char) := char_eq_of_toNat_eq (by rw [h47]; rfl)
              rw [hy']
              rfl
        · exact absurd h (by simp)

theorem applyNormalizeOptions_default (u : URLObj) :
    applyNormalizeOptions {} u =
      ⟨u.scheme, lowerStr u.host, u.pathname,
        if u.search = [] then [] else serializePairs (sortPairs (parsePairs u.search)), []⟩ := by
  obtain ⟨sch, host, path, search, hash⟩ := u
  unfold applyNormalizeOptions
  by_cases hs : search = [] <;> simp [hs]

theorem parsePairs_chars {q : List Char} {p : List Char × List Char}
    (hp : p ∈ parsePairs q) {c : Char} (hc : c ∈ p.1 ∨ c ∈ p.2) : c ∈ q := by
  simp only [parsePairs, List.mem_map, List.mem_filter] at hp
  obtain ⟨piece, ⟨hpiece, -⟩, rfl⟩ := hp
  rcases hc with hc | hc
  · exact splitOn_chars hpiece (splitEqAt_chars_key hc)
  · exact splitOn_chars hpiece (splitEqAt_chars_val hc)

theorem sortedSearch_all {q : List Char} (hq : q.all queryCharOK = true) :
    (serializePairs (sortPairs (parsePairs q))).all queryCharOK = true := by
  rw [List.all_eq_true]
  intro c hc
  rcases serializePairs_chars hc with rfl | rfl | ⟨p, hp, hc2⟩
  · decide
  · decide
  · exact List.all_eq_true.mp hq c (parsePairs_chars (sortPairs_mem hp) hc2)

theorem wf_applyNormalizeOptions_default {u : URLObj} (h : u.Wf) :
    (applyNormalizeOptions {} u).Wf := by
  rw [applyNormalizeOptions_default]
  obtain ⟨hsch, hhne, hhall, hhlow, hpne, hphead, hpall, hpdot, hqall⟩ := h
  refine ⟨hsch, by rw [hhlow]; exact hhne, by rw [hhlow]; exact hhall,
    by rw [hhlow, hhlow], hpne, hphead, hpall, hpdot, ?_⟩
  by_cases hs : u.search = []
  · simp [hs]
  · simp only [if_neg hs]
    exact sortedSearch_all hqall

theorem sortedPairs_sub {l : List (List Char × List Char)} (h : PairsWf l) :
    PairsWf (sortPairs l) :=
  fun p hp => h p (sortPairs_mem hp)

theorem applyNormalizeOptions_default_idem (u : URLObj) :
    applyNormalizeOptions {} (applyNormalizeOptions {} u) = applyNormalizeOptions {} u := by
  rw [applyNormalizeOptions_default u, applyNormalizeOptions_default]
  by_cases hs : u.search = []
  · simp [hs, lowerStr_idem]
  · simp only [if_neg hs]
    by_cases hs2 : serializePairs (sortPairs (parsePairs u.search)) = []
    · simp [hs2, lowerStr_idem]
    · simp only [if_neg hs2, lowerStr_idem]
      rw [parsePairs_serializePairs (sortedPairs_sub (parsePairs_wf u.search)),
        sortPairs_idem]

theorem getLast?_decomp {α : Type} {l : List α} {c : α} (h : l.getLast? = some c) :
    ∃ q, l = q ++ [c] := by
  have hne : l ≠ [] := by rintro rfl; simp at h
  rw [List.getLast?_eq_getLast _ hne] at h
  refine ⟨l.dropLast, ?_⟩
  have hd := List.dropLast_append_getLast hne
  rw [Option.some.inj h] at hd
  exact hd.symm

theorem getLast?_of_ne_nil {α : Type} {l : List α} (h : l ≠ []) :
    ∃ c, l.getLast? = some c := by
  cases hl : l.getLast? with
  | none => exact absurd (List.getLast?_eq_none_iff.mp hl) h
  | some c => exact ⟨c, rfl⟩

theorem head?_append_of_ne_nil {α : Type} {q : List α} (t : List α) (h : q ≠ []) :
    (q ++ t).head? = q.head? := by
  cases q with
  | nil => exact absurd rfl h
  | cons a as => simp

theorem serializeUrl_no_query {u : URLObj} (hs : u.search = []) (hh : u.hash = []) :
    serializeUrl u = (u.scheme ++ ':' :: '/' :: '/' :: u.host) ++ u.pathname := by
  rw [serializeUrl, hs, hh]
  simp

theorem parse_scheme_host {sch host : List Char}
    (hsch : sch = "http".toList ∨ sch = "https".toList)
    (hhne : host ≠ []) (hhall : host.all hostCharOK = true) :
    parseUrl (sch ++ ':' :: '/' :: '/' :: host) = some ⟨sch, lowerStr host, ['/'], [], []⟩ := by
  have hostPred : ∀ x ∈ host, (!hostEndChar x) = true := fun x hx => by
    rw [hostCharOK_not_end (List.all_eq_true.mp hhall x hx)]; rfl
  unfold parseUrl
  rw [dropScheme_append _ _ hsch]
  dsimp only
  rw [takeWhile_eq_self_of_all _ _ hostPred, dropWhile_eq_nil_of_all _ _ hostPred]
  simp [hhne, hhall, show pathCharOK '/' = true by decide,
    show noDotSegments ['/'] = true by decide]

theorem normalizeUrlCore_idem {l m : List Char} (h : normalizeUrlCore {} l = some m)
    (hm : m.getLast? ≠ some '/') : normalizeUrlCore {} m = some m := by
  unfold normalizeUrlCore at h ⊢
  cases hp : parseUrl l with
  | none => rw [hp] at h; simp at h
  | some obj =>
    rw [hp] at h
    rw [Option.map_some'] at h
    obtain rfl := (Option.some.inj h).symm
    dsimp only at hm ⊢
    have hwv : (applyNormalizeOptions {} obj).Wf :=
      wf_applyNormalizeOptions_default (parseUrl_wf hp)
    have hidem : applyNormalizeOptions {} (applyNormalizeOptions {} obj) =
        applyNormalizeOptions {} obj := applyNormalizeOptions_default_idem obj
    set v := applyNormalizeOptions {} obj with hv
    have hvh : v.hash = [] := by rw [hv, applyNormalizeOptions_default]
    by_cases hlast : (serializeUrl v).getLast? = some '/'
    · -- the serialized object form ends in '/': the source strips one slash
      have hvs : v.search = [] := by
        by_contra hvs
        obtain ⟨d, hd⟩ := getLast?_of_ne_nil hvs
        have hds : d ∈ v.search := List.mem_of_mem_getLast? hd
        have hdq : queryCharOK d = true :=
          List.all_eq_true.mp hwv.2.2.2.2.2.2.2.2 d hds
        have : (serializeUrl v).getLast? = some d := by
          rw [serializeUrl, hvh, if_neg hvs]
          simp only [List.append_nil, List.getLast?_append]
          rw [show ('?' :: v.search) = ['?'] ++ v.search from rfl, List.getLast?_append, hd]
          rfl
        rw [this] at hlast
        exact absurd (Option.some.inj hlast) (queryCharOK_ne_slash hdq)
      have hser : serializeUrl v = (v.scheme ++ ':' :: '/' :: '/' :: v.host) ++ v.pathname :=
        serializeUrl_no_query hvs hvh
      have hpne : v.pathname ≠ [] := hwv.2.2.2.2.1
      have hplast : v.pathname.getLast? = some '/' := by
        obtain ⟨c, hc⟩ := getLast?_of_ne_nil hpne
        rw [hser, List.getLast?_append, hc] at hlast
        rw [hc]
        exact Option.some.inj hlast ▸ rfl
      obtain ⟨q, hq⟩ := getLast?_decomp hplast
      have hstrip : stripSlash true (serializeUrl v) =
          (v.scheme ++ ':' :: '/' :: '/' :: v.host) ++ q := by
        rw [stripSlash, if_pos ⟨rfl, hlast⟩, hser, hq, ← List.append_assoc,
          List.dropLast_concat]
      by_cases hq0 : q = []
      · -- pathname was exactly "/": stripping gives scheme://host, a fixed point
        subst hq0
        simp only [List.append_nil] at hstrip
        rw [hstrip]
        rw [parse_scheme_host hwv.1 hwv.2.1 hwv.2.2.1]
        rw [Option.map_some']
        have hveq : (⟨v.scheme, lowerStr v.host, ['/'], [], []⟩ : URLObj) = v := by
          obtain ⟨vs, vh, vp, vq, vhh⟩ := v
          simp only at hvh hvs hq ⊢
          simp only [List.nil_append] at hq
          rw [hvh, hvs, hq]
          rw [show lowerStr vh = vh from hwv.2.2.2.1]
        rw [hveq, hidem, hstrip]
      · -- pathname ended in '/' after other segments: the stripped form reparses
        have hqhead : q.head? = some '/' := by
          have := hwv.2.2.2.2.2.1
          rw [hq, head?_append_of_ne_nil _ hq0] at this
          exact this
        have hqall : q.all pathCharOK = true := by
          have := hwv.2.2.2.2.2.2.1
          rw [hq, List.all_append, Bool.and_eq_true] at this
          exact this.1
        have hqdot : noDotSegments q = true := by
          have := hwv.2.2.2.2.2.2.2.1
          rw [hq] at this
          unfold noDotSegments at this ⊢
          rw [splitOn_append_sep, List.all_append, Bool.and_eq_true] at this
          exact this.1
        have hwf3 : URLObj.Wf ⟨v.scheme, v.host, q, [], []⟩ :=
          ⟨hwv.1, hwv.2.1, hwv.2.2.1, hwv.2.2.2.1, hq0, hqhead, hqall, hqdot, rfl⟩
        have hser3 : serializeUrl ⟨v.scheme, v.host, q, [], []⟩ =
            (v.scheme ++ ':' :: '/' :: '/' :: v.host) ++ q :=
          serializeUrl_no_query rfl rfl
        rw [hstrip, ← hser3, parse_serializeUrl hwf3, Option.map_some']
        have hnf3 : applyNormalizeOptions {} (⟨v.scheme, v.host, q, [], []⟩ : URLObj) =
            ⟨v.scheme, v.host, q, [], []⟩ := by
          rw [applyNormalizeOptions_default]
          simp [show lowerStr v.host = v.host from hwv.2.2.2.1]
        rw [hnf3, hser3, stripSlash, if_neg]
        intro hcon
        rw [hstrip] at hm
        apply hm
        rw [List.getLast?_append]
        rw [List.getLast?_append] at hcon
        obtain ⟨c, hc⟩ := getLast?_of_ne_nil hq0
        rw [hc] at hcon ⊢
        exact hcon.2
    · -- serialized form does not end in '/': already a fixed point
      have hnostrip : stripSlash true (serializeUrl v) = serializeUrl v := by
        rw [stripSlash, if_neg]
        intro hcon
        exact hlast hcon.2
      rw [hnostrip, parse_serializeUrl hwv, Option.map_some', hidem, hnostrip]

theorem normalizeUrl_idem_str (u s : String) (h : normalizeUrl u = some s)
    (hs : s.toList.getLast? ≠ some '/') : normalizeUrl s = some s := by
  unfold normalizeUrl at h ⊢
  cases hc : normalizeUrlCore {} u.toList with
  | none => rw [hc] at h; simp at h
  | some m =>
    rw [hc, Option.map_some'] at h
    obtain rfl := (Option.some.inj h).symm
    rw [show (⟨m⟩ : String).toList = m from rfl]
    rw [normalizeUrlCore_idem hc hs, Option.map_some']

/-! ## Deduplication lemmas -/

theorem dedupGo_sublist (o : NormalizeUrlOptions) (seen : List String) (us : List String) :
    (dedupGo o seen us).Sublist us := by
  induction us generalizing seen with
  | nil => simp [dedupGo]
  | cons u us ih =>
    rw [dedupGo]
    cases normalizeUrl u o with
    | none => exact (ih seen).cons u
    | some k =>
      dsimp only
      by_cases hk : seen.contains k
      · rw [if_pos hk]
        exact (ih seen).cons u
      · rw [if_neg hk]
        exact (ih (k :: seen)).cons₂ u

theorem dedupGo_key {o : NormalizeUrlOptions} {seen us : List String} {v : String}
    (h : v ∈ dedupGo o seen us) :
    ∃ k, normalizeUrl v o = some k ∧ seen.contains k = false := by
  induction us generalizing seen with
  | nil => simp [dedupGo] at h
  | cons u us ih =>
    rw [dedupGo] at h
    cases hn : normalizeUrl u o with
    | none => rw [hn] at h; exact ih h
    | some k =>
      rw [hn] at h
      dsimp only at h
      by_cases hk : seen.contains k
      · rw [if_pos hk] at h
        exact ih h
      · rw [if_neg hk] at h
        rcases List.mem_cons.mp h with rfl | h'
        · exact ⟨k, hn, Bool.eq_false_iff.mpr hk⟩
        · obtain ⟨k', hk', hseen⟩ := ih h'
          refine ⟨k', hk', ?_⟩
          simp only [List.contains_cons, Bool.or_eq_false_iff] at hseen
          exact hseen.2

theorem dedupGo_pairwise (o : NormalizeUrlOptions) (seen : List String) (us : List String) :
    (dedupGo o seen us).Pairwise fun a b => normalizeUrl a o ≠ normalizeUrl b o := by
  induction us generalizing seen with
  | nil => simp [dedupGo]
  | cons u us ih =>
    rw [dedupGo]
    cases hn : normalizeUrl u o with
    | none => exact ih seen
    | some k =>
      dsimp only
      by_cases hk : seen.contains k
      · rw [if_pos hk]
        exact ih seen
      · rw [if_neg hk]
        refine List.Pairwise.cons ?_ (ih (k :: seen))
        intro b hb
        obtain ⟨k', hk', hseen⟩ := dedupGo_key hb
        rw [hn, hk']
        simp only [List.contains_cons, Bool.or_eq_false_iff] at hseen
        intro hcon
        have : k = k' := Option.some.inj hcon
        subst this
        simp at hseen

theorem dedupGo_complete {o : NormalizeUrlOptions} {seen us : List String} {u : String}
    {k : String} (hu : u ∈ us) (hk : normalizeUrl u o = some k) :
    seen.contains k = true ∨ ∃ v ∈ dedupGo o seen us, normalizeUrl v o = some k := by
  induction us generalizing seen with
  | nil => simp at hu
  | cons w ws ih =>
    rw [dedupGo]
    rcases List.mem_cons.mp hu with rfl | hu'
    · rw [hk]
      dsimp only
      by_cases hs : seen.contains k
      · rw [if_pos hs]
        exact Or.inl hs
      · rw [if_neg hs]
        exact Or.inr ⟨u, by simp, hk⟩
    · cases hn : normalizeUrl w o with
      | none =>
        rcases @ih seen hu' with h | ⟨v, hv, hvk⟩
        · exact Or.inl h
        · exact Or.inr ⟨v, hv, hvk⟩
      | some kw =>
        dsimp only
        by_cases hs : seen.contains kw
        · rw [if_pos hs]
          exact ih hu'
        · rw [if_neg hs]
          rcases @ih (kw :: seen) hu' with h | ⟨v, hv, hvk⟩
          · rw [List.contains_cons, Bool.or_eq_true] at h
            rcases h with h | h
            · have hkk : k = kw := by simpa using h
              subst hkk
              exact Or.inr ⟨w, by simp, hn⟩
            · exact Or.inl h
          · exact Or.inr ⟨v, List.mem_cons_of_mem _ hv, hvk⟩

theorem dedupGo_first_seen {o : NormalizeUrlOptions} {seen us : List String} {v : String}
    (h : v ∈ dedupGo o seen us) :
    ∃ pre post, us = pre ++ v :: post ∧
      ∀ w ∈ pre, normalizeUrl w o = none ∨
        ∃ kw, normalizeUrl w o = some kw ∧
          (seen.contains kw = true ∨ normalizeUrl v o ≠ some kw) := by
  induction us generalizing seen with
  | nil => simp [dedupGo] at h
  | cons u us ih =>
    rw [dedupGo] at h
    cases hn : normalizeUrl u o with
    | none =>
      rw [hn] at h
      obtain ⟨pre, post, hsplit, hP⟩ := ih h
      exact ⟨u :: pre, post, by rw [hsplit]; rfl,
        fun w hw => by
          rcases List.mem_cons.mp hw with rfl | hw'
          · exact Or.inl hn
          · exact hP w hw'⟩
    | some k =>
      rw [hn] at h
      dsimp only at h
      by_cases hk : seen.contains k
      · rw [if_pos hk] at h
        obtain ⟨pre, post, hsplit, hP⟩ := ih h
        exact ⟨u :: pre, post, by rw [hsplit]; rfl,
          fun w hw => by
            rcases List.mem_cons.mp hw with rfl | hw'
            · exact Or.inr ⟨k, hn, Or.inl hk⟩
            · exact hP w hw'⟩
      · rw [if_neg hk] at h
        rcases List.mem_cons.mp h with rfl | h'
        · exact ⟨[], us, rfl, by simp⟩
        · obtain ⟨k', hk', hseen'⟩ := dedupGo_key h'
          rw [List.contains_cons, Bool.or_eq_false_iff] at hseen'
          have hvne : normalizeUrl v o ≠ some k := by
            rw [hk']
            intro hcon
            have : k' = k := Option.some.inj hcon
            subst this
            simp at hseen'
          obtain ⟨pre, post, hsplit, hP⟩ := ih h'
          refine ⟨u :: pre, post, by rw [hsplit]; rfl, fun w hw => ?_⟩
          rcases List.mem_cons.mp hw with rfl | hw'
          · exact Or.inr ⟨k, hn, Or.inr hvne⟩
          · rcases hP w hw' with hw0 | ⟨kw, hkw, hor⟩
            · exact Or.inl hw0
            · rcases hor with hc | hne
              · rw [List.contains_cons, Bool.or_eq_true] at hc
                rcases hc with hc | hc
                · have : kw = k := by simpa using hc
                  subst this
                  exact Or.inr ⟨kw, hkw, Or.inr hvne⟩
                · exact Or.inr ⟨kw, hkw, Or.inl hc⟩
              · exact Or.inr ⟨kw, hkw, Or.inr hne⟩

/-! ## Token-set lemmas for `calculateSimilarity` -/

theorem dedupList_subset {y : List Char} {l : List (List Char)}
    (h : y ∈ dedupList l) : y ∈ l := by
  induction l with
  | nil => simp [dedupList] at h
  | cons x xs ih =>
    rw [dedupList] at h
    rcases List.mem_cons.mp h with rfl | h'
    · simp
    · exact List.mem_cons_of_mem _ (ih (List.mem_of_mem_filter h'))

theorem mem_dedupList {y : List Char} {l : List (List Char)} (h : y ∈ l) :
    y ∈ dedupList l := by
  induction l with
  | nil => simp at h
  | cons x xs ih =>
    rw [dedupList]
    rcases List.mem_cons.mp h with rfl | h'
    · simp
    · by_cases hyx : y = x
      · simp [hyx]
      · exact List.mem_cons_of_mem _ (List.mem_filter.mpr ⟨ih h', by simpa using hyx⟩)

theorem dedupList_nodup (l : List (List Char)) : (dedupList l).Nodup := by
  induction l with
  | nil => simp [dedupList]
  | cons x xs ih =>
    rw [dedupList]
    refine List.Pairwise.cons ?_ (List.Nodup.filter _ ih)
    intro y hy
    have h2 : y ≠ x := by simpa using (List.mem_filter.mp hy).2
    exact fun he => h2 he.symm

theorem dedupList_ne_nil {l : List (List Char)} (h : l ≠ []) : dedupList l ≠ [] := by
  cases l with
  | nil => exact absurd rfl h
  | cons x xs => simp [dedupList]

/-! ## Claim theorems -/

/-- C2 (amended): normalizing `"https://Example.com/Path/?b=2&a=1#frag"` with
default options returns exactly `"https://example.com/Path/?a=1&b=2"`: the
host is lowercased, the query keys are sorted and the fragment is removed,
but the path's letter case is preserved and the slash before the query
survives, because trailing-slash removal only inspects the final character
of the serialized URL (`'2'` here). -/
theorem normalizeUrl_scenario :
    normalizeUrl "https://Example.com/Path/?b=2&a=1#frag" =
      some "https://example.com/Path/?a=1&b=2" := by
  decide

/-- C2 counterexample: the claimed output `"https://example.com/path?a=1&b=2"`
(lowercased path, trailing slash removed before the query) is not what the
code returns. -/
theorem normalizeUrl_scenario_counterexample :
    normalizeUrl "https://Example.com/Path/?b=2&a=1#frag" ≠
      some "https://example.com/path?a=1&b=2" := by
  decide

/-- C4 (amended): normalization with default options is idempotent for every
valid absolute http(s) URL whose normalized form does not end in `'/'`;
trailing-slash removal strips exactly one trailing slash per call and never
collapses `//` sequences elsewhere in the path (witnessed by the inner
`//` fixed point).  A URL whose canonical serialization ends in `//` is
stripped to a string still ending in `'/'` and is not a fixed point. -/
theorem normalizeUrl_idem_amended :
    (∀ u s : String, normalizeUrl u = some s → s.toList.getLast? ≠ some '/' →
      normalizeUrl s = some s) ∧
    normalizeUrl "https://example.com/a//b" = some "https://example.com/a//b" :=
  ⟨fun u s h hs => normalizeUrl_idem_str u s h hs, by decide⟩

/-- C4 witness: the amended idempotence applied at `"https://a.com/x/"`. -/
theorem normalizeUrl_idem_witness :
    normalizeUrl "https://a.com/x/" = some "https://a.com/x" ∧
    ("https://a.com/x" : String).toList.getLast? ≠ some '/' ∧
    normalizeUrl "https://a.com/x" = some "https://a.com/x" :=
  ⟨by decide, by decide,
    normalizeUrl_idem_amended.1 "https://a.com/x/" "https://a.com/x" (by decide) (by decide)⟩

/-- C4 counterexample: `normalize` is not idempotent on
`"https://example.com//"` — the first pass strips one of the two trailing
slashes, the second pass strips the other. -/
theorem normalizeUrl_idem_counterexample :
    (normalizeUrl "https://example.com//").bind (fun s => normalizeUrl s) ≠
      normalizeUrl "https://example.com//" ∧
    normalizeUrl "https://example.com//" = some "https://example.com/" ∧
    normalizeUrl "https://example.com/" = some "https://example.com" := by
  refine ⟨by decide, by decide, by decide⟩

/-- C5: for every URL list and normalization options, `deduplicateUrls`
returns a subsequence of the input (original forms, original order) in
which no two entries share a normalized key, every entry normalizes
successfully (unparseable URLs are dropped), every successfully-normalizing
input key is still represented, and each survivor is the first input
element bearing its key; and the scenario
`deduplicateUrls ["https://a.com/x", "https://a.com/x/", "https://A.COM/x"]`
returns exactly `["https://a.com/x"]`. -/
theorem deduplicateUrls_spec :
    (∀ (L : List String) (o : NormalizeUrlOptions),
      (deduplicateUrls L o).Sublist L ∧
      (deduplicateUrls L o).Pairwise (fun a b => normalizeUrl a o ≠ normalizeUrl b o) ∧
      (∀ v ∈ deduplicateUrls L o, ∃ k, normalizeUrl v o = some k) ∧
      (∀ u ∈ L, ∀ k, normalizeUrl u o = some k →
        ∃ v ∈ deduplicateUrls L o, normalizeUrl v o = some k) ∧
      (∀ v ∈ deduplicateUrls L o, ∃ pre post, L = pre ++ v :: post ∧
        ∀ w ∈ pre, normalizeUrl w o ≠ normalizeUrl v o)) ∧
    deduplicateUrls ["https://a.com/x", "https://a.com/x/", "https://A.COM/x"] {} =
      ["https://a.com/x"] := by
  refine ⟨fun L o => ⟨dedupGo_sublist o [] L, dedupGo_pairwise o [] L, ?_, ?_, ?_⟩, by decide⟩
  · intro v hv
    obtain ⟨k, hk, -⟩ := dedupGo_key hv
    exact ⟨k, hk⟩
  · intro u hu k hk
    rcases @dedupGo_complete o [] L u k hu hk with h | h
    · simp at h
    · exact h
  · intro v hv
    obtain ⟨pre, post, hsplit, hP⟩ := dedupGo_first_seen hv
    obtain ⟨kv, hkv, -⟩ := dedupGo_key hv
    refine ⟨pre, post, hsplit, fun w hw => ?_⟩
    rcases hP w hw with hw0 | ⟨kw, hkw, hor⟩
    · rw [hw0, hkv]
      simp
    · rcases hor with hc | hne
      · simp at hc
      · rw [hkw]
        intro hcon
        exact hne hcon.symm

/-- C5 witness: the general properties applied at the scenario list with
default options. -/
theorem deduplicateUrls_spec_witness :
    (deduplicateUrls ["https://a.com/x", "https://a.com/x/", "https://A.COM/x"] {}).Sublist
      ["https://a.com/x", "https://a.com/x/", "https://A.COM/x"] ∧
    (∃ v ∈ deduplicateUrls ["https://a.com/x", "https://a.com/x/", "https://A.COM/x"] {},
      normalizeUrl v {} = some "https://a.com/x") :=
  ⟨(deduplicateUrls_spec.1 _ {}).1,
    (deduplicateUrls_spec.1 _ {}).2.2.2.1 "https://a.com/x/" (by decide)
      "https://a.com/x" (by decide)⟩

/-- C7: the page-count limit passed to the collaborator's crawl call is
`min(maxPages, 100)`: requests above 100 are silently clamped to 100 and
requests at or below 100 pass through unchanged. -/
theorem crawlRequestLimit_spec :
    ∀ o : ExtractWebsiteOptions,
      crawlRequestLimit o = min o.maxPages 100 ∧
      (o.maxPages > 100 → crawlRequestLimit o = 100) ∧
      (o.maxPages ≤ 100 → crawlRequestLimit o = o.maxPages) := by
  intro o
  refine ⟨rfl, fun h => ?_, fun h => ?_⟩ <;> rw [crawlRequestLimit] <;> omega

/-- C7 witness: a request of 250 pages is clamped to 100, and one of 10
passes through. -/
theorem crawlRequestLimit_witness :
    (({ maxPages := 250 } : ExtractWebsiteOptions).maxPages > 100 ∧
      crawlRequestLimit { maxPages := 250 } = 100) ∧
    (({ maxPages := 10 } : ExtractWebsiteOptions).maxPages ≤ 100 ∧
      crawlRequestLimit { maxPages := 10 } = 10) :=
  ⟨⟨by decide, (crawlRequestLimit_spec _).2.1 (by decide)⟩,
    ⟨by decide, (crawlRequestLimit_spec _).2.2 (by decide)⟩⟩

/-- C6: `filterUrlsByPattern` is a pure, order-preserving filter: a URL is
dropped when any exclude pattern matches (checked first); otherwise, when
the include pattern list is non-empty, it is kept exactly when at least one
include pattern matches; with no include patterns (absent or empty) it is
kept.  Consequently an exclude pattern matching every URL yields the empty
list regardless of include patterns. -/
theorem filterUrlsByPattern_spec :
    ∀ (urls : List String) (inc exc : Option (List (String → Bool))),
      (filterUrlsByPattern urls inc exc).Sublist urls ∧
      (∀ u, u ∈ filterUrlsByPattern urls inc exc ↔
        u ∈ urls ∧ (∀ p ∈ exc.getD [], p u = false) ∧
          (inc.getD [] = [] ∨ ∃ p ∈ inc.getD [], p u = true)) ∧
      ((∀ u ∈ urls, ∃ p ∈ exc.getD [], p u = true) →
        filterUrlsByPattern urls inc exc = []) := by
  intro urls inc exc
  have hpred : ∀ u, keepUrl inc exc u = true ↔
      ((∀ p ∈ exc.getD [], p u = false) ∧
        (inc.getD [] = [] ∨ ∃ p ∈ inc.getD [], p u = true)) := by
    intro u
    unfold keepUrl
    by_cases he : (exc.getD []).any (fun p => p u) = true
    · rw [if_pos he]
      simp only [Bool.false_eq_true, false_iff, not_and]
      intro hall
      obtain ⟨p, hp, hpu⟩ := List.any_eq_true.mp he
      rw [hall p hp] at hpu
      exact absurd hpu (by simp)
    · rw [if_neg he]
      have hexc : ∀ p ∈ exc.getD [], p u = false := by
        intro p hp
        rcases Bool.eq_false_or_eq_true (p u) with ht | hf
        · exact absurd (List.any_eq_true.mpr ⟨p, hp, ht⟩) he
        · exact hf
      cases inc with
      | none => simpa using hexc
      | some ps =>
        dsimp only
        by_cases hps : ps = []
        · subst hps
          simpa using hexc
        · rw [if_pos (fun h => hps (List.length_eq_zero.mp h))]
          simp only [Option.getD_some]
          rw [List.any_eq_true]
          constructor
          · rintro ⟨p, hp, hpu⟩
            exact ⟨hexc, Or.inr ⟨p, hp, hpu⟩⟩
          · rintro ⟨-, h | ⟨p, hp, hpu⟩⟩
            · exact absurd h hps
            · exact ⟨p, hp, hpu⟩
  refine ⟨List.filter_sublist _, fun u => ?_, fun hall => ?_⟩
  · rw [filterUrlsByPattern, List.mem_filter, hpred u]
  · rw [filterUrlsByPattern]
    apply List.eq_nil_iff_forall_not_mem.mpr
    intro u hu
    obtain ⟨hmem, hp⟩ := List.mem_filter.mp hu
    obtain ⟨hexc, -⟩ := (hpred u).mp hp
    obtain ⟨p, hp', hpu⟩ := hall u hmem
    rw [hexc p hp'] at hpu
    exact absurd hpu (by simp)

/-- C6 witness: the general characterization applied to a two-URL list with
an exclude-everything pattern, and to an include-only instance. -/
theorem filterUrlsByPattern_witness :
    ((∀ u ∈ ["https://a.com", "https://b.com"],
        ∃ p ∈ [fun (_ : String) => true], p u = true) ∧
      filterUrlsByPattern ["https://a.com", "https://b.com"]
        (some [fun u => u = "https://a.com"]) (some [fun _ => true]) = []) ∧
    ("https://a.com" ∈ filterUrlsByPattern ["https://a.com", "https://b.com"]
        (some [fun u => u = "https://a.com"]) none ↔
      "https://a.com" ∈ ["https://a.com", "https://b.com"] ∧
        (∀ p ∈ (none : Option (List (String → Bool))).getD [], p "https://a.com" = false) ∧
        ([fun u => decide (u = "https://a.com")] = ([] : List (String → Bool)) ∨
          ∃ p ∈ [fun (u : String) => decide (u = "https://a.com")], p "https://a.com" = true)) :=
  ⟨⟨fun u _ => ⟨fun _ => true, by simp⟩,
      (filterUrlsByPattern_spec _ _ _).2.2 (fun u _ => ⟨fun _ => true, by simp⟩)⟩,
    (filterUrlsByPattern_spec _ _ _).2.1 _⟩


theorem calcSim_empty : calculateSimilarity "" "" = some 1 := by
  have h1 : ((simTokens "").filter fun x => (simTokens "").contains x).length = 1 := by decide
  have h2 : (dedupList (simTokens "" ++ simTokens "")).length = 1 := by decide
  rw [calculateSimilarity]
  rw [h1, h2]
  norm_num

/-- C8 (amended): `calculateSimilarity` computes the Jaccard ratio of the
deduplicated `split(/\s+/)` token lists, which always contain at least one
token (an empty or padded document contributes an empty-string token), so
the union is never empty, the division is never a `0/0` fault, and the
result always lies in `[0, 1]`.  Because the empty token participates,
two empty documents score 1, not 0. -/
theorem calculateSimilarity_spec :
    (∀ a b : String, ∃ q : ℚ, calculateSimilarity a b = some q ∧ 0 ≤ q ∧ q ≤ 1) ∧
    calculateSimilarity "" "" = some 1 := by
  refine ⟨fun a b => ?_, calcSim_empty⟩
  have hne : dedupList (simTokens a ++ simTokens b) ≠ [] := by
    apply dedupList_ne_nil
    intro hcon
    have h1 : simTokens a = [] := by
      cases h : simTokens a with
      | nil => rfl
      | cons x xs => rw [h] at hcon; simp at hcon
    exact dedupList_ne_nil (splitWs_ne_nil _) h1
  have hpos : 0 < (dedupList (simTokens a ++ simTokens b)).length :=
    List.length_pos.mpr hne
  have hle : ((simTokens a).filter fun x => (simTokens b).contains x).length ≤
      (dedupList (simTokens a ++ simTokens b)).length := by
    apply List.Subperm.length_le
    apply List.subperm_of_subset
    · exact List.Nodup.filter _ (dedupList_nodup _)
    · intro x hx
      exact mem_dedupList (List.mem_append_left _ (List.mem_of_mem_filter hx))
  refine ⟨((((simTokens a).filter fun x => (simTokens b).contains x).length : ℚ) /
      ((dedupList (simTokens a ++ simTokens b)).length : ℚ)), ?_, ?_, ?_⟩
  · rw [calculateSimilarity, if_neg (by omega)]
  · apply div_nonneg
    · exact_mod_cast Nat.zero_le _
    · exact_mod_cast Nat.zero_le _
  · rw [div_le_one (by exact_mod_cast hpos)]
    exact_mod_cast hle

/-- C8 counterexample: on two empty documents the code returns similarity 1
(both token sets are the singleton containing the empty token), not the 0
the claim specifies for an empty union of vocabularies. -/
theorem calculateSimilarity_counterexample :
    calculateSimilarity "" "" = some 1 ∧ calculateSimilarity "" "" ≠ some 0 := by
  refine ⟨calcSim_empty, ?_⟩
  rw [calcSim_empty]
  intro hcon
  have : (1 : ℚ) = 0 := Option.some.inj hcon
  norm_num at this

/-- C1 (amended): for every crawl result assembled by `extractWebsite`,
`totalPages` is the number of Page Records plus the number of Failure
Records, `totalWords` is the sum of the Page Records' word counts,
`avgWordsPerPage` is `totalWords / pages` with a guard mapping the
no-pages case to 0, and `successRate` is `100 * pages / total` whenever at
least one record was processed — but when the total is 0 the source
divides `0 / 0` without a guard, so the rate is the JavaScript `NaN`
(modelled `none`), not the 0 the claim specifies. -/
theorem extractWebsite_stats (url : String) (o : ExtractWebsiteOptions)
    (data : List RawPage) (r : ExtractionResult)
    (h : extractWebsite url o data = some r) :
    r.totalPages = r.pages.length + r.failed.length ∧
    r.stats.totalWords = (r.pages.map fun pg => pg.metadata.wordCount).sum ∧
    (r.pages.length > 0 →
      r.stats.avgWordsPerPage = (r.stats.totalWords : ℚ) / (r.pages.length : ℚ)) ∧
    (r.pages.length = 0 → r.stats.avgWordsPerPage = 0) ∧
    (r.totalPages > 0 →
      r.stats.successRate = some (100 * (r.pages.length : ℚ) / (r.totalPages : ℚ))) ∧
    (r.totalPages = 0 → r.stats.successRate = none) := by
  unfold extractWebsite at h
  cases hn : normalizeUrl url {} with
  | none => rw [hn] at h; simp at h
  | some s =>
    rw [hn] at h
    dsimp only at h
    obtain rfl := (Option.some.inj h).symm
    dsimp only
    refine ⟨rfl, rfl, fun hp => ?_, fun hp => ?_, fun ht => ?_, fun ht => ?_⟩
    · rw [if_pos hp]
    · rw [if_neg (by omega)]
    · rw [if_neg (by omega)]
      congr 1
      ring
    · rw [if_pos ht]

/-- C1 witness: the amended statement applied to an empty collaborator
response, where the total is 0 and the rate is `none`. -/
theorem extractWebsite_stats_witness :
    (emptyCrawlResult.totalPages = 0 → emptyCrawlResult.stats.successRate = none) ∧
    (emptyCrawlResult.pages.length = 0 → emptyCrawlResult.stats.avgWordsPerPage = 0) :=
  ⟨(extractWebsite_stats "https://example.com" {} [] emptyCrawlResult rfl).2.2.2.2.2,
    (extractWebsite_stats "https://example.com" {} [] emptyCrawlResult rfl).2.2.2.1⟩

/-- C1 counterexample: an empty collaborator response has
`pages + failed = 0`, and the computed success rate is the unguarded
`0 / 0` (`NaN`, modelled `none`), not the 0 the claim defines for that
case. -/
theorem extractWebsite_stats_counterexample :
    (extractWebsite "https://example.com" {} []).map (fun r => r.stats.successRate) =
      some none ∧
    (none : Option ℚ) ≠ some 0 := by
  exact ⟨rfl, by simp⟩

/-- C3: a raw record whose source URL fails to parse is caught inside the
per-record loop and becomes a Failure Record (the URL is normalized before
the membership test, so the error path runs even though the bad URL is also
absent from the deduplicated list); the crawl is not aborted.  In the
five-record scenario with exactly one unparseable source URL the result has
4 Page Records, 1 Failure Record, and `totalPages = 5`. -/
theorem extractWebsite_bad_url :
    (∀ (seed : String) (urls : List String) (fmt : OutputFormat)
      (tp : Option String) (p : RawPage),
      normalizeUrl (pageSourceUrl seed p) = none →
      processPage seed urls fmt tp p =
        some (Sum.inr ⟨getNE p.url "unknown", "Invalid URL: " ++ pageSourceUrl seed p⟩)) ∧
    ((extractWebsite "https://site.com" {} mixedCrawlData).map fun r =>
      (r.pages.length, r.failed.length, r.totalPages)) = some (4, 1, 5) := by
  constructor
  · intro seed urls fmt tp p h
    unfold processPage
    rw [h]
  · decide

/-- C3 witness: the per-record failure path applied to a record whose
source URL is `"not a url"`. -/
theorem extractWebsite_bad_url_witness :
    normalizeUrl (pageSourceUrl "https://site.com" badSourceRec) = none ∧
    processPage "https://site.com" [] OutputFormat.markdown none badSourceRec =
      some (Sum.inr ⟨getNE badSourceRec.url "unknown",
        "Invalid URL: " ++ pageSourceUrl "https://site.com" badSourceRec⟩) :=
  ⟨by decide,
    extractWebsite_bad_url.1 "https://site.com" [] OutputFormat.markdown none badSourceRec
      (by decide)⟩

/-- C9: `buildMetadata` computes the word count — and the content handed to
the `detectLanguage` fallback — from the markdown payload (falling back to
the generic `content` field, then `""`), whatever output format the caller
requested; hence for an html-format request the metadata word count can
differ from the word count of the returned record's cleaned content. -/
theorem buildMetadata_markdown_based :
    (∀ (p : RawPage) (nurl : String),
      (buildMetadata p nurl).wordCount =
        countWords (extractContent p OutputFormat.markdown) ∧
      (buildMetadata p nurl).language =
        (toNE (p.metadata.bind fun m => m.language)).orElse
          (fun _ => detectLanguage (extractContent p OutputFormat.markdown))) ∧
    (buildMetadata ⟨none, some "one two three", some "one", none, none, none, none⟩
        "https://a.com").wordCount ≠
      countWords (cleanContent (extractContent
        ⟨none, some "one two three", some "one", none, none, none, none⟩
        OutputFormat.html)) := by
  exact ⟨fun p nurl => ⟨rfl, rfl⟩, by decide⟩

/-- C10: a raw record whose per-loop source URL (`metadata.sourceURL`
falling back to the seed) normalizes successfully but is absent from the
deduplicated-and-filtered URL list is skipped silently — it contributes
neither a Page Record nor a Failure Record; consequently, for two raw
records whose URLs normalize to the same key, the result counts only one
page and `totalPages = 1` is strictly below the 2 raw records. -/
theorem processPage_skip :
    (∀ (seed : String) (urls : List String) (fmt : OutputFormat)
      (tp : Option String) (p : RawPage) (nurl : String),
      normalizeUrl (pageSourceUrl seed p) = some nurl →
      urls.contains (pageSourceUrl seed p) = false →
      processPage seed urls fmt tp p = none) ∧
    ((extractWebsite "https://site.com" {} duplicateCrawlData).map fun r =>
      (r.pages.length, r.failed.length, r.totalPages)) = some (1, 0, 1) ∧
    duplicateCrawlData.length = 2 := by
  refine ⟨?_, by decide, by decide⟩
  intro seed urls fmt tp p nurl h h2
  unfold processPage
  rw [h]
  dsimp only
  rw [if_neg (by simpa using h2)]

/-- C10 witness: the silent-skip path applied to a parseable record absent
from the URL list. -/
theorem processPage_skip_witness :
    normalizeUrl (pageSourceUrl "https://site.com" (okRec "https://site.com/a")) =
      some "https://site.com/a" ∧
    List.contains [] (pageSourceUrl "https://site.com" (okRec "https://site.com/a")) = false ∧
    processPage "https://site.com" [] OutputFormat.markdown none (okRec "https://site.com/a") =
      none :=
  ⟨by decide, by decide,
    processPage_skip.1 "https://site.com" [] OutputFormat.markdown none
      (okRec "https://site.com/a") "https://site.com/a" (by decide) (by decide)⟩
